import Mathlib

/-!
# Verification of the `ballast` generational garbage collector

Shallow embedding of the `ballast` collector (Rust) and proofs about it.

Modelling conventions:
* Machine addresses (`HeapPointer`) and sizes (`usize`) are modelled as `Nat`;
  where wrap-around matters the reduction `% 2^64` is written explicitly.
* Rust panics (`panic!`, failed `assert!`, failed `unwrap`, division by zero)
  are modelled with `Except Panic`; fallible functions returning `Option`
  keep the `Option` inside the `Except`.
* Raw heap memory is modelled as a total function `Mem : Nat → Nat` mapping a
  byte address to the byte stored there, together with explicit
  read/write/zero primitives mirroring `ptr::copy` / `write_bytes`.
* `Vec<T>` stacks are modelled as `List T` in `Vec` order (`push` appends,
  `pop` removes the last element); the per-class recycled stacks of the free
  list are modelled with the head as the top of the stack, which preserves
  the LIFO behaviour of `Vec::push`/`Vec::pop`.
-/

namespace Ballast

/-- The Rust panics that the embedded code can raise.
`assertFailed` is the `assert!(size >= MINI_POCKET)` in `PocketSize::next_up`
and `next_down`; `unrecognizedPocketSize` is the `panic!` fallback of
`PocketSize::from_pocket_size`; `unwrapFailed` is a failed `unwrap()`;
`allocationTooLargeForYoung` is the
`panic!("Allocation too large for young generation")` in `BumpHeap::alloc`;
`oldGenerationOOM` is the `panic!("Old Generation OOM")` in
`BumpHeap::scavenge`; `divByZero` is the Rust division-by-zero panic. -/
inductive Panic where
  | assertFailed
  | unrecognizedPocketSize
  | unrecognizedPocketVariant
  | unwrapFailed
  | allocationTooLargeForYoung
  | oldGenerationOOM
  | divByZero
  deriving DecidableEq, Repr

/-! ## Size classes (`src/free_list.rs`, `pocket!` instantiation) -/

/-- `MINI_POCKET` from the `pocket!` instantiation. -/
def MINI_POCKET : Nat := 1
/-- `TINY_POCKET`. -/
def TINY_POCKET : Nat := 32
/-- `SMALL_POCKET`. -/
def SMALL_POCKET : Nat := 128
/-- `MEDIUM_POCKET = KILOBYTE * 2`. -/
def MEDIUM_POCKET : Nat := 1024 * 2
/-- `LARGE_POCKET = KILOBYTE * 8`. -/
def LARGE_POCKET : Nat := 1024 * 8
/-- `HUGE_POCKET = KILOBYTE * 32`. -/
def HUGE_POCKET : Nat := 1024 * 32

/-- The `PocketSize` enum generated by the `pocket!` macro:
`Mini = 0, Tiny, Small, Medium, Large, Huge`. -/
inductive PocketSize where
  | mini
  | tiny
  | small
  | medium
  | large
  | huge
  deriving DecidableEq, Repr

namespace PocketSize

/-- `PocketSize::index`: the discriminant of the variant. -/
def index : PocketSize → Nat
  | mini => 0
  | tiny => 1
  | small => 2
  | medium => 3
  | large => 4
  | huge => 5

/-- `MEMORY_POCKETS`: the array of pocket sizes, indexed by `index`. -/
def MEMORY_POCKETS : List Nat :=
  [MINI_POCKET, TINY_POCKET, SMALL_POCKET, MEDIUM_POCKET, LARGE_POCKET, HUGE_POCKET]

/-- `PocketSize::size`: `MEMORY_POCKETS[self.index()]`. -/
def size : PocketSize → Nat
  | mini => MINI_POCKET
  | tiny => TINY_POCKET
  | small => SMALL_POCKET
  | medium => MEDIUM_POCKET
  | large => LARGE_POCKET
  | huge => HUGE_POCKET

/-- The list of all pocket classes in index order. -/
def allPockets : List PocketSize := [mini, tiny, small, medium, large, huge]

/-- `PocketSize::next_up`: asserts `size >= MINI_POCKET` (so `size = 0`
panics), then returns the first class whose size is `≥ size` by the chain of
`else if size <= …` tests, or `None` past `HUGE_POCKET`. -/
def next_up (size : Nat) : Except Panic (Option PocketSize) :=
  if size < MINI_POCKET then .error .assertFailed
  else if size ≤ MINI_POCKET then .ok (some mini)
  else if size ≤ TINY_POCKET then .ok (some tiny)
  else if size ≤ SMALL_POCKET then .ok (some small)
  else if size ≤ MEDIUM_POCKET then .ok (some medium)
  else if size ≤ LARGE_POCKET then .ok (some large)
  else if size ≤ HUGE_POCKET then .ok (some huge)
  else .ok none

/-- `PocketSize::from_pocket_size`: maps an exact pocket byte size back to its
class, panicking on any other size. -/
def from_pocket_size (size : Nat) : Except Panic PocketSize :=
  if size = MINI_POCKET then .ok mini
  else if size = TINY_POCKET then .ok tiny
  else if size = SMALL_POCKET then .ok small
  else if size = MEDIUM_POCKET then .ok medium
  else if size = LARGE_POCKET then .ok large
  else if size = HUGE_POCKET then .ok huge
  else .error .unrecognizedPocketSize

end PocketSize

/-! ## Free list (`src/free_list.rs`) -/

/-- `FreeList`: bump frontier `current` inside the region `[start, start+size)`
plus one LIFO stack of recycled addresses per pocket class.  Addresses are
`Nat` (the `usize` inside `HeapPointer`). -/
structure FreeList where
  start : Nat
  current : Nat
  size : Nat
  pockets : PocketSize → List Nat

/-- `FreeList::new`: `current` starts at `start`, all pocket stacks empty. -/
def FreeList.new (start size : Nat) : FreeList :=
  { start := start, current := start, size := size, pockets := fun _ => [] }

/-- `FreeList::alloc`.  Source order of the branches:
1. `let pocket = PocketSize::next_up(size)?` (propagating `None`, and the
   assert panic for `size = 0`);
2. if `current.offset(pocket.size()) < start.offset(size)` (strict `<`),
   carve from the bump frontier and advance `current`;
3. else if the class stack pops a pointer, return it;
4. else `None`.
Returns the `(ptr, pocket_size)` pair together with the updated list. -/
def FreeList.alloc (fl : FreeList) (size : Nat) :
    Except Panic (Option ((Nat × Nat) × FreeList)) :=
  match PocketSize.next_up size with
  | .error p => .error p
  | .ok none => .ok none
  | .ok (some pocket) =>
    if fl.current + pocket.size < fl.start + fl.size then
      .ok (some ((fl.current, pocket.size),
        { fl with current := fl.current + pocket.size }))
    else
      match fl.pockets pocket with
      | ptr :: rest =>
        .ok (some ((ptr, pocket.size),
          { fl with pockets := fun q => if q = pocket then rest else fl.pockets q }))
      | [] => .ok none

/-- `PocketSize::reclaim`: `from_pocket_size(size)` (panicking on an unknown
size) then push `ptr` onto that class's stack. -/
def PocketSize.reclaim (size ptr : Nat) (fl : FreeList) : Except Panic FreeList :=
  match PocketSize.from_pocket_size size with
  | .error p => .error p
  | .ok pocket =>
    .ok { fl with pockets := fun q => if q = pocket then ptr :: fl.pockets q else fl.pockets q }

/-! ## Error surface (`src/lib.rs`) -/

/-- The `Error` enum of `src/lib.rs` (lines 44–50).  Note that it has exactly
the three variants `OutOfSpace`, `SizeMisalign`, `NoAllocationFound` — there is
no `TooLarge` variant anywhere in the crate. -/
inductive Error where
  | OutOfSpace
  | SizeMisalign
  | NoAllocationFound
  deriving DecidableEq, Repr

/-! ## `HeapPointer` arithmetic (`src/memory/heap_pointer.rs`) -/

/-- Width of `usize` on the modelled 64-bit target. -/
def USIZE_MOD : Nat := 2 ^ 64

/-- `HeapPointer`: a `repr(transparent)` wrapper around a `usize`. -/
structure HeapPointer where
  val : Nat
  deriving DecidableEq, Repr

namespace HeapPointer

/-- `impl Div for HeapPointer`: the body is `Self(self.0 + other.into())` —
an addition, not a division.  Overflow wraps modulo `2^64` (release-mode
`usize` semantics). -/
def div (p : HeapPointer) (n : Nat) : HeapPointer :=
  ⟨(p.val + n) % USIZE_MOD⟩

/-- `impl DivAssign for HeapPointer`: the body is `self.0 /= other.into()` —
a genuine truncating division; dividing by zero panics. -/
def divAssign (p : HeapPointer) (n : Nat) : Except Panic HeapPointer :=
  if n = 0 then .error .divByZero else .ok ⟨p.val / n⟩

/-- `HeapPointer::as_usize`. -/
def as_usize (p : HeapPointer) : Nat := p.val

end HeapPointer

/-! ## Raw memory

Heap memory is modelled as a total function from byte addresses to byte
values.  `writeBytes` models `ptr::write`/`ptr::copy` of a byte slice,
`readBytes` the corresponding read, `zeroRange` models
`write_bytes(0x00, len)`. -/

/-- Byte-addressed memory. -/
def Mem : Type := Nat → Nat

/-- Write the byte list `bs` starting at address `p`. -/
def writeBytes (m : Mem) (p : Nat) (bs : List Nat) : Mem :=
  fun a => if p ≤ a ∧ a < p + bs.length then bs.getD (a - p) 0 else m a

/-- Read `n` bytes starting at address `p`. -/
def readBytes (m : Mem) (p n : Nat) : List Nat :=
  (List.range n).map (fun i => m (p + i))

/-- Zero the `n` bytes starting at address `p`
(`ptr.write_bytes(0x00, n)`). -/
def zeroRange (m : Mem) (p n : Nat) : Mem :=
  fun a => if p ≤ a ∧ a < p + n then 0 else m a

/-! ## `Weight` and `Shade` (`src/weight.rs`) -/

/-- The `Shade` enum. -/
inductive Shade where
  | white
  | grey
  | black
  deriving DecidableEq, Repr

/-- `Weight`: bookkeeping record for one allocation of the sweep heap.
`AllocId` is modelled as a bare `Nat`. -/
structure Weight where
  ptr : Nat
  size : Nat
  children : List Nat
  shade : Shade
  pocket : PocketSize
  deriving DecidableEq, Repr

/-- `Weight::new`: fresh weights are white with no children. -/
def Weight.new (ptr size : Nat) (pocket : PocketSize) : Weight :=
  { ptr := ptr, size := size, children := [], shade := .white, pocket := pocket }

/-- Modelled from the spec: `FreeList::reclaim`.  `SweepHeap::sweep` calls
`self.free_list.reclaim(weight)`, but `src/free_list.rs` contains no such
method (only `PocketSize::reclaim`); per §4.2 of the specification,
`reclaim` pushes the address onto the matching class's recycled stack. -/
def FreeList.reclaim (fl : FreeList) (w : Weight) : FreeList :=
  { fl with pockets := fun q => if q = w.pocket then w.ptr :: fl.pockets q else fl.pockets q }

/-! ## The sweep heap of `src/sweep_heap.rs`

The `white`/`grey`/`black` hash maps are modelled as association lists
(`List (Nat × Weight)`); `insert` conses the new binding and removes any
shadowed one, `lookup` finds the most recent binding, matching `HashMap`
observably.  Iteration order of `drain`/`keys` is the list order (the Rust
`HashMap` order is unspecified). -/

structure SweepHeap where
  start : Nat
  size : Nat
  free_list : FreeList
  roots : List Nat
  white : List (Nat × Weight)
  grey : List (Nat × Weight)
  black : List (Nat × Weight)
  next_id : Nat
  mem : Mem

namespace SweepHeap

/-- `SweepHeap::new`: page-aligned zeroed region handed out by the OS at
`start`; all maps empty. -/
def new (start size : Nat) : SweepHeap :=
  { start := start, size := size, free_list := FreeList.new start size,
    roots := [], white := [], grey := [], black := [], next_id := 0,
    mem := fun _ => 0 }

/-- `HashMap::insert` on the association-list model. -/
def insertW (l : List (Nat × Weight)) (id : Nat) (w : Weight) : List (Nat × Weight) :=
  (id, w) :: l.filter (fun p => p.1 ≠ id)

/-- `HashMap::get` on the association-list model. -/
def lookupW (l : List (Nat × Weight)) (id : Nat) : Option Weight :=
  (l.find? (fun p => p.1 = id)).map (·.2)

/-- `SweepHeap::alloc`: carve or recycle a pocket from the free list (`?`
propagates `None`), write the payload bytes at the returned address, and
insert a fresh white `Weight` under the next `AllocId`. -/
def alloc (h : SweepHeap) (bytes : List Nat) : Except Panic (Option (SweepHeap × Nat)) :=
  match h.free_list.alloc bytes.length with
  | .error p => .error p
  | .ok none => .ok none
  | .ok (some ((ptr, pocket_size), fl)) =>
    match PocketSize.from_pocket_size pocket_size with
    | .error p => .error p
    | .ok pocket =>
      .ok (some ({ h with
        free_list := fl,
        mem := writeBytes h.mem ptr bytes,
        white := insertW h.white h.next_id (Weight.new ptr bytes.length pocket),
        next_id := h.next_id + 1 }, h.next_id))

/-- `SweepHeap::get_weight`: look in `black`, then `grey`, then `white`. -/
def get_weight (h : SweepHeap) (id : Nat) : Option Weight :=
  match lookupW h.black id with
  | some w => some w
  | none =>
    match lookupW h.grey id with
    | some w => some w
    | none => lookupW h.white id

/-- `SweepHeap::contains`. -/
def contains (h : SweepHeap) (id : Nat) : Bool :=
  (lookupW h.black id).isSome || (lookupW h.grey id).isSome || (lookupW h.white id).isSome

/-- `SweepHeap::get::<T>`: absent id → `NoAllocationFound`; a stored size
different from `size_of::<T>` (the byte count `tsize`) → `SizeMisalign`;
otherwise the `size_of::<T>` bytes at the recorded pointer are copied out.
`get` takes `&self`: it returns no updated heap, so the heap is unchanged. -/
def get (h : SweepHeap) (tsize : Nat) (id : Nat) : Except Error (List Nat) :=
  match h.get_weight id with
  | none => .error .NoAllocationFound
  | some w =>
    if w.size ≠ tsize then .error .SizeMisalign
    else .ok (readBytes h.mem w.ptr tsize)

/-- `Vec::pop`: remove and return the *last* element. -/
def vecPop (l : List Nat) : Option (Nat × List Nat) :=
  match l.getLast? with
  | none => none
  | some x => some (x, l.dropLast)

/-- Set the shade of `id`'s weight to black in whichever map
`get_weight_mut` finds it (black, then grey, then white); also return that
weight's children.  `none` models the failed `unwrap` panic. -/
def setShadeBlack (h : SweepHeap) (id : Nat) : Option (SweepHeap × List Nat) :=
  let upd : List (Nat × Weight) → List (Nat × Weight) := fun l =>
    l.map (fun p => if p.1 = id then (p.1, { p.2 with shade := .black }) else p)
  match lookupW h.black id with
  | some w => some ({ h with black := upd h.black }, w.children)
  | none =>
    match lookupW h.grey id with
    | some w => some ({ h with grey := upd h.grey }, w.children)
    | none =>
      match lookupW h.white id with
      | some w => some ({ h with white := upd h.white }, w.children)
      | none => none

/-- The marking loop of `SweepHeap::sweep`
(`while let Some(id) = to_mark.pop()`), with explicit fuel: the source loop
re-pushes children unconditionally and does not terminate on cyclic
`children` graphs, so the embedding returns `none` when the fuel runs out.
`children` are appended at the end of the worklist (`extend_from_slice`). -/
def markLoop (fuel : Nat) (l : List Nat) (h : SweepHeap) :
    Option (Except Panic SweepHeap) :=
  match vecPop l with
  | none => some (.ok h)
  | some (id, rest) =>
    match fuel with
    | 0 => none
    | fuel' + 1 =>
      match setShadeBlack h id with
      | none => some (.error .unwrapFailed)
      | some (h', children) => markLoop fuel' (rest ++ children) h'

/-- `SweepHeap::sweep`: mark from the grey keys, then drain `white`,
reclaiming every drained weight into the free list. -/
def sweep (fuel : Nat) (h : SweepHeap) : Option (Except Panic SweepHeap) :=
  match markLoop fuel (h.grey.map (·.1)) h with
  | none => none
  | some (.error p) => some (.error p)
  | some (.ok h') =>
    some (.ok { h' with
      white := [],
      free_list := h'.white.foldl (fun fl p => fl.reclaim p.2) h'.free_list })

/-- `SweepHeap::compact`: the body in the source is empty — a no-op. -/
def compact (h : SweepHeap) : SweepHeap := h

/-- `SweepHeap::fragmentation`: `1.0 - (free_list.start as f32 / size as f32)`.
Note the numerator is the *absolute region start address*, not
`current - start`.  The `f32` arithmetic is modelled over `ℚ`; the sole
consumer compares the result against `50.0`, and since the true value is
`1 - (nonnegative)` ≤ 1, the comparison's outcome (false) is unaffected by
`f32` rounding, which cannot raise a value bounded by 1 above 50. -/
def fragmentation (h : SweepHeap) : ℚ :=
  1 - (h.free_list.start : ℚ) / (h.size : ℚ)

/-- `SweepHeap::collect`: sweep, then compact iff `fragmentation() > 50.0`. -/
def collect (fuel : Nat) (h : SweepHeap) : Option (Except Panic SweepHeap) :=
  match sweep fuel h with
  | some (.ok h') => some (.ok (if 50 < h'.fragmentation then h'.compact else h'))
  | other => other

end SweepHeap

/-- The fragmentation metric the specification prescribes (§4.3):
`1 − (current − start) / region_size`, the fraction of the old region not yet
bump-carved.  Reference definition used to compare against the source's
`SweepHeap::fragmentation`. -/
def specFragmentation (h : SweepHeap) : ℚ :=
  1 - ((h.free_list.current : ℚ) - (h.free_list.start : ℚ)) / (h.size : ℚ)

/-! ## Rooted descriptors (`src/bump_heap.rs` / `src/rooted.rs`) -/

/-- The `Color` enum of the rooted descriptors. -/
inductive Color where
  | black
  | grey
  | white
  deriving DecidableEq, Repr

/-- `ContainingHeap`: which region currently holds the object.  In the source
`Intermediate(usize)` carries the *pocket byte size* the object occupies. -/
inductive ContainingHeap where
  | eden
  | intermediate (pocketSize : Nat)
  deriving DecidableEq, Repr

/-- Whether the descriptor lives in the old region. -/
def ContainingHeap.isIntermediate : ContainingHeap → Bool
  | .eden => false
  | .intermediate _ => true

/-- `RootedInner`: a pinned descriptor.  The pinned box address that client
handles carry is modelled by the stable `id`; `value` is the address of the
payload (the data pointer of the `*mut HeapValue<dyn Any>` fat pointer, whose
vtable part does not affect the byte-level semantics modelled here);
`size` is `size_of::<HeapValue<T>>`. -/
structure RootedInner where
  id : Nat
  value : Nat
  rooted : Bool
  color : Color
  heap : ContainingHeap
  size : Nat
  deriving DecidableEq, Repr

/-! ## The old heap used by `BumpHeap` (spec-modelled)

`BumpHeap` calls `SweepHeap::from_region(ptr, size)`,
`SweepHeap::alloc(size) -> Option<(HeapPointer, usize)>` and
`SweepHeap::collect(&mut Vec<Pin<Box<RootedInner>>>)`.  None of these exist in
`src/sweep_heap.rs` (its `SweepHeap` allocates typed values under `AllocId`s
and collects without a root list) — the repository is mid-refactor and only
the caller survives in `src/`.  The old heap actually used by `BumpHeap` is
therefore modelled from the spec (§4.3) as `OldHeap` below. -/

/-- Modelled from the spec: the old (sweep) heap as used by `BumpHeap` —
a free list over a region handed over by the top-level heap
(`SweepHeap::from_region`). -/
structure OldHeap where
  free_list : FreeList

/-- Modelled from the spec: `SweepHeap::from_region(start, size)`. -/
def OldHeap.from_region (start size : Nat) : OldHeap :=
  ⟨FreeList.new start size⟩

/-- Modelled from the spec: `SweepHeap::alloc(size) → (addr, class_size) | None`
"delegates to the free list" (§4.3). -/
def OldHeap.alloc (oh : OldHeap) (size : Nat) :
    Except Panic (Option ((Nat × Nat) × OldHeap)) :=
  match oh.free_list.alloc size with
  | .error p => .error p
  | .ok none => .ok none
  | .ok (some (pr, fl)) => .ok (some (pr, ⟨fl⟩))

/-- Modelled from the spec: `sweep(roots)` (§4.3) — iterate the registry; a
descriptor with `heap == Intermediate(c)` and `rooted == false` has its
payload address reclaimed into class `c`'s stack (via `PocketSize::reclaim`,
which panics on an unrecognized pocket size) and is removed; all other
descriptors are retained in order. -/
def sweepRoots : FreeList → List RootedInner → Except Panic (FreeList × List RootedInner)
  | fl, [] => .ok (fl, [])
  | fl, d :: rest =>
    match d.heap, d.rooted with
    | .intermediate c, false =>
      match PocketSize.reclaim c d.value fl with
      | .error p => .error p
      | .ok fl' => sweepRoots fl' rest
    | _, _ =>
      match sweepRoots fl rest with
      | .error p => .error p
      | .ok (fl', kept) => .ok (fl', d :: kept)

/-- Modelled from the spec: the survivor ordering of `compact(roots)` (§4.3) —
"partition survivors by size class, lay them out in ascending address order":
old-region descriptors grouped by class in ascending class order, keeping
registry order within a class. -/
def compactOrder (roots : List RootedInner) : List RootedInner :=
  PocketSize.allPockets.flatMap
    (fun k => roots.filter (fun d => d.heap = .intermediate k.size))

/-- Assign packed target addresses to the ordered survivors, starting at
`addr`: each survivor occupies its pocket-size extent. -/
def layoutAux : Nat → List RootedInner → List (RootedInner × Nat)
  | _, [] => []
  | addr, d :: rest =>
    match d.heap with
    | .intermediate c => (d, addr) :: layoutAux (addr + c) rest
    | .eden => layoutAux addr rest

/-- The descriptor rewrite of the spec-modelled `compact(roots)`: a survivor
found in the packed layout has its `value` redirected to its target address;
other descriptors are unchanged. -/
def compactReloc (fl : FreeList) (roots : List RootedInner) (d : RootedInner) :
    RootedInner :=
  match (layoutAux fl.start (compactOrder roots)).find? (fun da => da.1.id = d.id) with
  | some da => { d with value := da.2 }
  | none => d

/-- Modelled from the spec: `compact(roots)` (§4.3) — relocate the surviving
old-region objects to the low end of the region: copy each survivor's bytes
to its packed target address (reading from the pre-compaction memory),
rewrite each survivor's `value`, clear the class stacks, and reset the bump
frontier to immediately past the highest survivor. -/
def compactRoots (fl : FreeList) (roots : List RootedInner) (mem : Mem) :
    FreeList × List RootedInner × Mem :=
  let assign := layoutAux fl.start (compactOrder roots)
  let mem' := assign.foldl
    (fun m da => writeBytes m da.2 (readBytes mem da.1.value da.1.size)) mem
  let roots' := roots.map (compactReloc fl roots)
  let newCurrent := assign.foldl
    (fun acc da => max acc (da.2 + match da.1.heap with
      | .intermediate c => c
      | .eden => 0)) fl.start
  ({ fl with current := newCurrent, pockets := fun _ => [] }, roots', mem')

/-- Modelled from the spec: the old heap's fragmentation metric (§4.3):
`1 − (current − start) / region_size`. -/
def OldHeap.fragmentation (oh : OldHeap) : ℚ :=
  1 - ((oh.free_list.current : ℚ) - (oh.free_list.start : ℚ)) / (oh.free_list.size : ℚ)

/-- Modelled from the spec: `collect(roots)` (§4.3) — `sweep(roots)`, then
`compact(roots)` iff the fragmentation exceeds 0.50. -/
def OldHeap.collect (oh : OldHeap) (roots : List RootedInner) (mem : Mem) :
    Except Panic (OldHeap × List RootedInner × Mem) :=
  match sweepRoots oh.free_list roots with
  | .error p => .error p
  | .ok (fl1, roots1) =>
    if (1 / 2 : ℚ) < OldHeap.fragmentation ⟨fl1⟩ then
      match compactRoots fl1 roots1 mem with
      | (fl2, roots2, mem2) => .ok (⟨fl2⟩, roots2, mem2)
    else .ok (⟨fl1⟩, roots1, mem)

/-! ## The bump heap (`src/bump_heap.rs`) -/

/-- `BumpOptions`.  The `Default` impl uses 4 KiB young and 2 KiB old. -/
structure BumpOptions where
  young_heap_size : Nat
  old_heap_size : Nat

/-- `BumpOptions::default()`. -/
def BumpOptions.default : BumpOptions :=
  { young_heap_size := 1024 * 4, old_heap_size := 1024 * 2 }

/-- `memory::padding_for(size, align)`: distance from `size` up to the next
multiple of `align`.  The source computes
`((size + align - 1) & !(align - 1)) - size`, which equals this expression
for the power-of-two alignments `Layout` accepts. -/
def padding_for (size align : Nat) : Nat :=
  align * ((size + align - 1) / align) - size

/-- `BumpHeap`: the young region `[young_start, young_end)` with bump frontier
`young_current`, the old heap over `[young_end + 1, young_end + 1 + old_size)`,
and the pinned root registry (in insertion order).  `base` is the address the
aligned zeroed OS allocation returned (asserted non-null in the source);
`pageSize` is the external `page_size()`. -/
structure BumpHeap where
  young_start : Nat
  young_end : Nat
  young_current : Nat
  heap_size : Nat
  intermediate : OldHeap
  roots : List RootedInner
  next_id : Nat
  mem : Mem

namespace BumpHeap

/-- `BumpHeap::new`: one zeroed arena of `young + old` bytes (rounded up to
the page), Eden at the bottom (`young_end = start + total − old_size`), the
old region delegated to `from_region(young_end.offset(1), old_size)`. -/
def new (options : BumpOptions) (base pageSize : Nat) : BumpHeap :=
  let layoutSize := options.young_heap_size + options.old_heap_size
  let total := layoutSize + padding_for layoutSize pageSize
  let young_end := base + total - options.old_heap_size
  { young_start := base,
    young_end := young_end,
    young_current := base,
    heap_size := total,
    intermediate := OldHeap.from_region (young_end + 1) options.old_heap_size,
    roots := [],
    next_id := 0,
    mem := fun _ => 0 }

/-- `BumpHeap::major`: `self.intermediate.collect(&mut self.roots)`. -/
def major (st : BumpHeap) : Except Panic BumpHeap :=
  match st.intermediate.collect st.roots st.mem with
  | .error p => .error p
  | .ok (oh, roots', mem') =>
    .ok { st with intermediate := oh, roots := roots', mem := mem' }

/-- The tail of a successful promotion in `BumpHeap::scavenge`: set the
descriptor's `heap` to `Intermediate(pocket_size)`, `ptr::copy` the payload
bytes to the new slot, rewrite the descriptor's data pointer, and push it
back into the registry. -/
def finishPromote (st : BumpHeap) (oh : OldHeap) (root : RootedInner)
    (ptr psize : Nat) : BumpHeap :=
  { st with
    intermediate := oh,
    mem := writeBytes st.mem ptr (readBytes st.mem root.value root.size),
    roots := st.roots ++ [{ root with heap := .intermediate psize, value := ptr }] }

/-- One iteration of the scavenge loop: a non-rooted descriptor is dropped;
a rooted one is promoted into the old heap, running `major()` (on the roots
processed so far — the registry was swapped out) and retrying once on
allocation failure, and panicking `Old Generation OOM` if the retry fails. -/
def promote (st : BumpHeap) (root : RootedInner) : Except Panic BumpHeap :=
  if root.rooted then
    match st.intermediate.alloc root.size with
    | .error p => .error p
    | .ok (some ((ptr, psize), oh)) => .ok (finishPromote st oh root ptr psize)
    | .ok none =>
      match st.major with
      | .error p => .error p
      | .ok stM =>
        match stM.intermediate.alloc root.size with
        | .error p => .error p
        | .ok (some ((ptr, psize), oh)) => .ok (finishPromote stM oh root ptr psize)
        | .ok none => .error .oldGenerationOOM
  else .ok st

/-- The scavenge loop over the swapped-out root list. -/
def processRoots : BumpHeap → List RootedInner → Except Panic BumpHeap
  | st, [] => .ok st
  | st, r :: rest =>
    match promote st r with
    | .error p => .error p
    | .ok st' => processRoots st' rest

/-- `BumpHeap::scavenge`: swap the registry out, process every root, then
zero the Eden region `[young_start, young_end)` and reset the bump frontier
to `young_start`. -/
def scavenge (st : BumpHeap) : Except Panic BumpHeap :=
  match processRoots { st with roots := [] } st.roots with
  | .error p => .error p
  | .ok st1 =>
    .ok { st1 with
      mem := zeroRange st1.mem st1.young_start (st1.young_end - st1.young_start),
      young_current := st1.young_start }

/-- `BumpHeap::alloc`: scavenge if the payload does not fit Eden, panic if it
still does not fit, then bump-allocate, write the payload bytes, and register
a fresh pinned descriptor (`rooted = true`, `color = White`, `heap = Eden`).
The returned `Nat` is the new descriptor's stable id (the handle). -/
def alloc (st : BumpHeap) (bytes : List Nat) : Except Panic (BumpHeap × Nat) :=
  let n := bytes.length
  match (if st.young_current + n > st.young_end then st.scavenge else .ok st) with
  | .error p => .error p
  | .ok st =>
    if st.young_current + n > st.young_end then .error .allocationTooLargeForYoung
    else
      let p := st.young_current
      .ok ({ st with
        mem := writeBytes st.mem p bytes,
        young_current := p + n,
        roots := st.roots ++
          [{ id := st.next_id, value := p, rooted := true, color := .white,
             heap := .eden, size := n }],
        next_id := st.next_id + 1 }, st.next_id)

/-- `Drop for Rooted<T>`: clear the descriptor's `rooted` flag. -/
def dropHandle (st : BumpHeap) (id : Nat) : BumpHeap :=
  { st with roots :=
      st.roots.map (fun d => if d.id = id then { d with rooted := false } else d) }

/-- `Rooted::<T>::deref`: read the payload bytes through the descriptor's
current `value` pointer ( `[]` models the undefined behaviour of a dangling
handle whose descriptor is gone). -/
def derefHandle (st : BumpHeap) (id : Nat) : List Nat :=
  match st.roots.find? (fun d => d.id = id) with
  | some d => readBytes st.mem d.value d.size
  | none => []

end BumpHeap

/-- The client-visible operations of the top-level heap. -/
inductive Op where
  | allocOp (bytes : List Nat)
  | dropOp (id : Nat)
  | scavengeOp
  | majorOp
  deriving DecidableEq, Repr

/-- Run a sequence of client operations. -/
def runOps : BumpHeap → List Op → Except Panic BumpHeap
  | st, [] => .ok st
  | st, op :: rest =>
    match (match op with
           | .allocOp bytes =>
             (match st.alloc bytes with
              | .error p => .error p
              | .ok (st', _) => .ok st')
           | .dropOp id => .ok (st.dropHandle id)
           | .scavengeOp => st.scavenge
           | .majorOp => st.major : Except Panic BumpHeap) with
    | .error p => .error p
    | .ok st' => runOps st' rest

/-! ## Span bookkeeping for the heap invariant (claim C1)

A *span* `(a, n)` is the byte range `[a, a + n)`.  A descriptor owns its
payload span (Eden: `size` bytes; old region: its whole pocket), and every
recycled stack entry owns its pocket span.  The central invariant is that all
these spans are pairwise disjoint and confined to their regions. -/

/-- The byte extent a descriptor owns: its payload size in Eden, its whole
pocket in the old region. -/
def descExtent (d : RootedInner) : Nat :=
  match d.heap with
  | .eden => d.size
  | .intermediate c => c

/-- The span owned by a descriptor. -/
def descSpan (d : RootedInner) : Nat × Nat := (d.value, descExtent d)

/-- Disjointness of two spans. -/
def DisjP (s t : Nat × Nat) : Prop := s.1 + s.2 ≤ t.1 ∨ t.1 + t.2 ≤ s.1

/-- The spans held by the recycled stacks of a free list, per class over a
given class list. -/
def freeSlotsOver (L : List PocketSize) (fl : FreeList) : List (Nat × Nat) :=
  L.flatMap (fun k => (fl.pockets k).map (fun p => (p, k.size)))

/-- All spans held by the recycled stacks of a free list. -/
def freeSlots (fl : FreeList) : List (Nat × Nat) :=
  freeSlotsOver PocketSize.allPockets fl

/-- A well-placed Eden descriptor: its payload lies inside the used part of
Eden. -/
def edenOK (st : BumpHeap) (d : RootedInner) : Prop :=
  st.young_start ≤ d.value ∧ d.value + d.size ≤ st.young_current

/-- A well-placed old-region descriptor: a recognized pocket size that
accommodates the payload, with the pocket inside the carved part of the old
region. -/
def intOK (fl : FreeList) (d : RootedInner) (c : Nat) : Prop :=
  c ∈ PocketSize.MEMORY_POCKETS ∧ d.size ≤ c ∧
  fl.start ≤ d.value ∧ d.value + c ≤ fl.current

/-- A well-placed descriptor. -/
def descOK (st : BumpHeap) (d : RootedInner) : Prop :=
  match d.heap with
  | .eden => edenOK st d
  | .intermediate c => intOK st.intermediate.free_list d c

/-- A well-placed recycled slot: inside the carved part of the old region. -/
def slotOK (fl : FreeList) (s : Nat × Nat) : Prop :=
  fl.start ≤ s.1 ∧ s.1 + s.2 ≤ fl.current

/-- Registry segregation: the old-region descriptors form a prefix, the Eden
descriptors a suffix.  This holds because descriptors are appended in
allocation order and scavenge promotes the whole registry. -/
def Segregated (l : List RootedInner) : Prop :=
  ∃ l₁ l₂, l = l₁ ++ l₂ ∧ (∀ d ∈ l₁, ∃ c, d.heap = ContainingHeap.intermediate c) ∧
    (∀ d ∈ l₂, d.heap = ContainingHeap.eden)

/-- The core heap invariant of the bump collector, carried together with an
extra list `EXT` of descriptors that live outside the registry (the
unprocessed part of a scavenge; `EXT = []` between operations). -/
structure MidInv (st : BumpHeap) (EXT : List RootedInner) : Prop where
  young_lo : st.young_start ≤ st.young_current
  young_hi : st.young_current ≤ st.young_end
  old_pos : st.young_end < st.intermediate.free_list.start
  cur_ge : st.intermediate.free_list.start ≤ st.intermediate.free_list.current
  size_zero : st.intermediate.free_list.size = 0 →
    st.intermediate.free_list.current = st.intermediate.free_list.start
  ids_nodup : ((st.roots ++ EXT).map RootedInner.id).Nodup
  ids_lt : ∀ d ∈ st.roots ++ EXT, d.id < st.next_id
  seg_roots : Segregated st.roots
  descs_ok : ∀ d ∈ st.roots ++ EXT, descOK st d
  slots_ok : ∀ s ∈ freeSlots st.intermediate.free_list,
    slotOK st.intermediate.free_list s
  disj : ((st.roots ++ EXT).map descSpan ++ freeSlots st.intermediate.free_list).Pairwise DisjP

/-- The heap invariant of the bump collector (claim C1).  It is established
by `BumpHeap.new` and preserved by `alloc`, handle drop, `scavenge` and
`major`. -/
def Inv (st : BumpHeap) : Prop := MidInv st []

/-- The invariant carried through the scavenge loop: the state holds the
processed roots (all rooted, all promoted), `R` is the remaining suffix of
the swapped-out registry. -/
structure LoopInv (st : BumpHeap) (R : List RootedInner) : Prop where
  base : MidInv st R
  proc_good : ∀ d ∈ st.roots, d.rooted = true ∧ ∃ c, d.heap = ContainingHeap.intermediate c
  rem_seg : Segregated R

/-- A live handle `id` currently referring to the payload bytes `bytes`,
where the descriptor may sit either in the registry of `st` or in the extra
list (the unprocessed part of a scavenge). -/
def TrackedWith (st : BumpHeap) (extra : List RootedInner) (id : Nat)
    (bytes : List Nat) : Prop :=
  ∃ d, (d ∈ st.roots ∨ d ∈ extra) ∧ d.id = id ∧ d.rooted = true ∧
    d.size = bytes.length ∧ readBytes st.mem d.value d.size = bytes

/-- A live handle `id` referring to the payload bytes `bytes`. -/
def TrackedIn (st : BumpHeap) (id : Nat) (bytes : List Nat) : Prop :=
  TrackedWith st [] id bytes

/-! ## Reference formulation of the allocation policy (for claim C2) -/

/-- The smallest pocket class whose size accommodates `s`, found by scanning
the classes in ascending size order.  Reference definition used to compare
`FreeList.alloc` against the specification's words. -/
def smallestPocketGE (s : Nat) : Option PocketSize :=
  PocketSize.allPockets.find? (fun c => s ≤ c.size)

/-- The allocation policy that `FreeList::alloc` actually implements, written
out in specification style: `s = 0` hits the `assert!`; otherwise the smallest
class `c` with `c.size ≥ s` is selected (absent above the largest class); the
bump frontier is carved **first** whenever `current + c.size < start + size`
(strict), and only otherwise is the class's recycled stack popped; if both
fail the result is absent. -/
def FreeList.allocPolicy (fl : FreeList) (s : Nat) :
    Except Panic (Option ((Nat × Nat) × FreeList)) :=
  if s = 0 then .error .assertFailed
  else
    match smallestPocketGE s with
    | none => .ok none
    | some c =>
      if fl.current + c.size < fl.start + fl.size then
        .ok (some ((fl.current, c.size), { fl with current := fl.current + c.size }))
      else
        match fl.pockets c with
        | ptr :: rest =>
          .ok (some ((ptr, c.size),
            { fl with pockets := fun q => if q = c then rest else fl.pockets q }))
        | [] => .ok none

/-- The free list used as the C2 counterexample: region `[4096, 14096)`, the
bump frontier still at `4096`, and one recycled Tiny slot at address `9000`. -/
def flC2 : FreeList :=
  { start := 4096, current := 4096, size := 10000,
    pockets := fun q => if q = .tiny then [9000] else [] }

/-- A default bump heap whose arena the OS placed at `4096` (page size
`4096`). -/
def heapC3 : BumpHeap := BumpHeap.new BumpOptions.default 4096 4096

/-- `heapC3` after `alloc`-ing the one-byte payload `[7]`. -/
def bumpC3 : BumpHeap := ((BumpHeap.alloc heapC3 [7]).toOption.getD (heapC3, 0)).1

/-- `bumpC3` after one scavenge. -/
def scavC3 : BumpHeap := (BumpHeap.scavenge bumpC3).toOption.getD bumpC3

/-- The C1 witness heap: a fresh default arena the OS placed at `4096`
(page size `4096`). -/
def heapC1 : BumpHeap := BumpHeap.new BumpOptions.default 4096 4096

/-- `heapC1` after `alloc`-ing the one-byte payload `[7]` (handle `0`). -/
def bumpC1 : BumpHeap := ((BumpHeap.alloc heapC1 [7]).toOption.getD (heapC1, 0)).1

/-- `bumpC1` after running one client scavenge. -/
def scavC1 : BumpHeap := (runOps bumpC1 [Op.scavengeOp]).toOption.getD bumpC1

/-- A bump heap whose old region (2 KiB at `8193`) is empty: any promotion of
a Medium-class payload can neither carve (the strict bound fails at the full
class size) nor pop, so it fails even after a major cycle. -/
def st6 : BumpHeap :=
  { young_start := 4096, young_end := 8192, young_current := 4096,
    heap_size := 8192, intermediate := OldHeap.from_region 8193 2048,
    roots := [], next_id := 1, mem := fun _ => 0 }

/-- A rooted Eden descriptor of payload size 200 (Medium class). -/
def root6 : RootedInner :=
  { id := 0, value := 4096, rooted := true, color := .white,
    heap := .eden, size := 200 }

/-- `st6` after the major cycle its failed promotion triggers: nothing is
swept (the registry is empty), the fragmentation `1 > 1/2` makes the
spec-modelled compaction run, clearing the (already empty) stacks and
resetting the frontier to the region start. -/
def stM6 : BumpHeap :=
  { st6 with intermediate :=
      ⟨{ start := 8193, current := 8193, size := 2048, pockets := fun _ => [] }⟩ }

/-- The concrete sweep-heap state used for claims C4 and C5: region start
`4096`, region size `1024`, one carved (and already dead, white) Tiny pocket
at `4096`, bump frontier at `4128`. -/
def shC4 : SweepHeap :=
  { start := 4096, size := 1024,
    free_list := { start := 4096, current := 4128, size := 1024, pockets := fun _ => [] },
    roots := [],
    white := [(0, Weight.new 4096 20 .tiny)],
    grey := [], black := [], next_id := 1,
    mem := fun _ => 0 }

/-- The state of `shC4` after one sweep: the dead white Tiny pocket at `4096`
has been reclaimed onto the Tiny stack, `white` is drained; the bump frontier
is untouched. -/
def shC4sw : SweepHeap :=
  { shC4 with
    white := [],
    free_list :=
      { start := 4096, current := 4128, size := 1024,
        pockets := fun q => if q = PocketSize.tiny then [4096] else [] } }

/-- All allocation ids present in the sweep heap's maps are below `next_id`.
This holds for every heap reachable through the API (`alloc` hands out
`next_id` and then increments it) and is the hypothesis under which a fresh
id cannot collide with an existing one. -/
def SweepHeapIdsBounded (h : SweepHeap) : Prop :=
  ∀ p ∈ h.black ++ h.grey ++ h.white, p.1 < h.next_id

/-! # Helper lemmas -/

@[simp] theorem size_mini : PocketSize.size .mini = 1 := rfl
@[simp] theorem size_tiny : PocketSize.size .tiny = 32 := rfl
@[simp] theorem size_small : PocketSize.size .small = 128 := rfl
@[simp] theorem size_medium : PocketSize.size .medium = 2048 := rfl
@[simp] theorem size_large : PocketSize.size .large = 8192 := rfl
@[simp] theorem size_huge : PocketSize.size .huge = 32768 := rfl

theorem smallestPocketGE_eq (s : Nat) :
    smallestPocketGE s =
      if s ≤ 1 then some .mini
      else if s ≤ 32 then some .tiny
      else if s ≤ 128 then some .small
      else if s ≤ 2048 then some .medium
      else if s ≤ 8192 then some .large
      else if s ≤ 32768 then some .huge
      else none := by
  unfold smallestPocketGE PocketSize.allPockets
  simp only [List.find?_cons, List.find?_nil, size_mini, size_tiny, size_small,
    size_medium, size_large, size_huge]
  cases hd1 : decide (s ≤ 1) <;> cases hd2 : decide (s ≤ 32) <;>
    cases hd3 : decide (s ≤ 128) <;> cases hd4 : decide (s ≤ 2048) <;>
    cases hd5 : decide (s ≤ 8192) <;> cases hd6 : decide (s ≤ 32768) <;>
    simp_all <;> (split_ifs <;> first | rfl | omega | simp_all)

theorem next_up_eq_smallest (s : Nat) (h : 1 ≤ s) :
    PocketSize.next_up s = .ok (smallestPocketGE s) := by
  rw [smallestPocketGE_eq]
  unfold PocketSize.next_up
  simp only [MINI_POCKET, TINY_POCKET, SMALL_POCKET, MEDIUM_POCKET,
    LARGE_POCKET, HUGE_POCKET]
  split_ifs <;> first | rfl | omega

theorem fragmentation_le_one (h : SweepHeap) : SweepHeap.fragmentation h ≤ 1 := by
  unfold SweepHeap.fragmentation
  have hnn : (0 : ℚ) ≤ (h.free_list.start : ℚ) / (h.size : ℚ) :=
    div_nonneg (Nat.cast_nonneg _) (Nat.cast_nonneg _)
  linarith

theorem collect_eq_sweep (fuel : Nat) (h : SweepHeap) :
    SweepHeap.collect fuel h = SweepHeap.sweep fuel h := by
  unfold SweepHeap.collect
  cases hs : SweepHeap.sweep fuel h with
  | none => rfl
  | some r =>
    cases r with
    | error p => rfl
    | ok h' =>
      have : ¬ 50 < SweepHeap.fragmentation h' := by
        have := fragmentation_le_one h'
        intro hc
        linarith
      simp [this]

theorem readBytes_writeBytes (m : Mem) (p : Nat) (bs : List Nat) :
    readBytes (writeBytes m p bs) p bs.length = bs := by
  unfold readBytes writeBytes
  apply List.ext_getElem
  · simp
  · intro i h1 h2
    simp only [List.getElem_map, List.getElem_range]
    rw [if_pos ⟨Nat.le_add_right _ _, by simpa using h2⟩]
    rw [Nat.add_sub_cancel_left]
    exact List.getD_eq_getElem bs 0 h2

theorem lookupW_insert_self (l : List (Nat × Weight)) (id : Nat) (w : Weight) :
    SweepHeap.lookupW (SweepHeap.insertW l id w) id = some w := by
  unfold SweepHeap.lookupW SweepHeap.insertW
  simp

theorem lookupW_none_of_forall_ne (l : List (Nat × Weight)) (id : Nat)
    (h : ∀ p ∈ l, p.1 ≠ id) : SweepHeap.lookupW l id = none := by
  unfold SweepHeap.lookupW
  rw [List.find?_eq_none.mpr]
  · rfl
  · intro p hp
    simp [h p hp]

theorem next_up_error (s : Nat) (p : Panic) (h : PocketSize.next_up s = .error p) :
    p = .assertFailed := by
  unfold PocketSize.next_up at h
  split_ifs at h <;> first | exact (Except.error.inj h).symm | exact Except.noConfusion h

theorem fl_alloc_error (fl : FreeList) (s : Nat) (p : Panic)
    (h : fl.alloc s = .error p) : p = .assertFailed := by
  unfold FreeList.alloc at h
  split at h
  · rename_i q hq
    exact (Except.error.inj h) ▸ next_up_error s q hq
  · exact Except.noConfusion h
  · split at h
    · exact Except.noConfusion h
    · split at h <;> exact Except.noConfusion h

theorem oldHeap_alloc_error (oh : OldHeap) (s : Nat) (p : Panic)
    (h : oh.alloc s = .error p) : p = .assertFailed := by
  unfold OldHeap.alloc at h
  split at h
  · rename_i q hq
    exact (Except.error.inj h) ▸ fl_alloc_error _ _ q hq
  · exact Except.noConfusion h
  · exact Except.noConfusion h

theorem from_pocket_size_error (c : Nat) (q : Panic)
    (h : PocketSize.from_pocket_size c = .error q) : q = .unrecognizedPocketSize := by
  unfold PocketSize.from_pocket_size at h
  split_ifs at h <;>
    first | exact Except.noConfusion h | exact (Except.error.inj h).symm

theorem reclaim_error (c v : Nat) (fl : FreeList) (p : Panic)
    (h : PocketSize.reclaim c v fl = .error p) : p = .unrecognizedPocketSize := by
  unfold PocketSize.reclaim at h
  split at h
  · rename_i q hq
    exact (Except.error.inj h) ▸ from_pocket_size_error c q hq
  · exact Except.noConfusion h

theorem sweepRoots_error (l : List RootedInner) :
    ∀ fl p, sweepRoots fl l = .error p → p = .unrecognizedPocketSize := by
  induction l with
  | nil => intro fl p h; exact Except.noConfusion h
  | cons d rest ih =>
    intro fl p h
    unfold sweepRoots at h
    split at h
    · split at h
      · rename_i q hq
        exact (Except.error.inj h) ▸ reclaim_error _ _ _ q hq
      · exact ih _ p h
    · split at h
      · rename_i q hq
        exact (Except.error.inj h) ▸ ih _ q hq
      · exact Except.noConfusion h

theorem collect_error (oh : OldHeap) (roots : List RootedInner) (mem : Mem)
    (p : Panic) (h : oh.collect roots mem = .error p) :
    p = .unrecognizedPocketSize := by
  unfold OldHeap.collect at h
  split at h
  · rename_i q hq
    exact (Except.error.inj h) ▸ sweepRoots_error roots _ q hq
  · split at h
    · split at h
      exact Except.noConfusion h
    · exact Except.noConfusion h

theorem major_error (st : BumpHeap) (p : Panic) (h : st.major = .error p) :
    p = .unrecognizedPocketSize := by
  unfold BumpHeap.major at h
  split at h
  · rename_i q hq
    exact (Except.error.inj h) ▸ collect_error _ _ _ q hq
  · exact Except.noConfusion h

theorem major_young_fields (st st' : BumpHeap) (h : st.major = .ok st') :
    st'.young_start = st.young_start ∧ st'.young_end = st.young_end ∧
    st'.young_current = st.young_current ∧ st'.next_id = st.next_id := by
  unfold BumpHeap.major at h
  split at h
  · exact Except.noConfusion h
  · obtain rfl := Except.ok.inj h
    exact ⟨rfl, rfl, rfl, rfl⟩

theorem sweepRoots_kept_mem (l : List RootedInner) :
    ∀ fl fl' kept, sweepRoots fl l = .ok (fl', kept) → ∀ d ∈ kept, d ∈ l := by
  induction l with
  | nil =>
    intro fl fl' kept h d hd
    obtain ⟨-, rfl⟩ := Prod.mk.inj (Except.ok.inj h)
    exact absurd hd (List.not_mem_nil d)
  | cons r rest ih =>
    intro fl fl' kept h d hd
    unfold sweepRoots at h
    split at h
    · split at h
      · exact Except.noConfusion h
      · exact List.mem_cons_of_mem r (ih _ _ _ h d hd)
    · split at h
      · exact Except.noConfusion h
      · rename_i fl1 kept1 hrec
        obtain ⟨-, rfl⟩ := Prod.mk.inj (Except.ok.inj h)
        rcases List.mem_cons.mp hd with rfl | hd'
        · exact List.mem_cons_self d rest
        · exact List.mem_cons_of_mem r (ih _ _ _ hrec d hd')

theorem compactRoots_roots_shape (fl : FreeList) (roots : List RootedInner)
    (mem : Mem) :
    ∀ d' ∈ (compactRoots fl roots mem).2.1,
      ∃ d ∈ roots, d'.rooted = d.rooted ∧ d'.heap = d.heap ∧
        d'.size = d.size ∧ d'.id = d.id := by
  intro d' hd'
  unfold compactRoots at hd'
  simp only [List.mem_map] at hd'
  obtain ⟨d, hd, hmap⟩ := hd'
  refine ⟨d, hd, ?_⟩
  subst hmap
  unfold compactReloc
  split <;> exact ⟨rfl, rfl, rfl, rfl⟩

theorem collect_roots_shape (oh : OldHeap) (roots : List RootedInner) (mem : Mem)
    (oh' : OldHeap) (roots' : List RootedInner) (mem' : Mem)
    (h : oh.collect roots mem = .ok (oh', roots', mem')) :
    ∀ d' ∈ roots', ∃ d ∈ roots, d'.rooted = d.rooted ∧ d'.heap = d.heap ∧
      d'.size = d.size ∧ d'.id = d.id := by
  intro d' hd'
  unfold OldHeap.collect at h
  split at h
  · exact Except.noConfusion h
  · rename_i fl1 roots1 hsw
    split at h
    · split at h
      rename_i fl2 roots2 mem2 hcomp
      obtain ⟨-, h2⟩ := Prod.mk.inj (Except.ok.inj h)
      obtain ⟨h2a, -⟩ := Prod.mk.inj h2
      subst h2a
      have := compactRoots_roots_shape fl1 roots1 mem d' (by rw [hcomp]; exact hd')
      obtain ⟨d, hd, hprops⟩ := this
      exact ⟨d, sweepRoots_kept_mem roots _ _ _ hsw d hd, hprops⟩
    · obtain ⟨-, h2⟩ := Prod.mk.inj (Except.ok.inj h)
      obtain ⟨h2a, -⟩ := Prod.mk.inj h2
      subst h2a
      exact ⟨d', sweepRoots_kept_mem roots _ _ _ hsw d' hd', rfl, rfl, rfl, rfl⟩

theorem major_roots_shape (st st' : BumpHeap) (h : st.major = .ok st') :
    ∀ d' ∈ st'.roots, ∃ d ∈ st.roots, d'.rooted = d.rooted ∧ d'.heap = d.heap ∧
      d'.size = d.size ∧ d'.id = d.id := by
  unfold BumpHeap.major at h
  split at h
  · exact Except.noConfusion h
  · rename_i oh roots' mem' hcol
    obtain rfl := Except.ok.inj h
    exact collect_roots_shape _ _ _ _ _ _ hcol

theorem promote_roots_good (st : BumpHeap) (root : RootedInner) (st' : BumpHeap)
    (hgood : ∀ d ∈ st.roots, d.rooted = true ∧ ∃ c, d.heap = ContainingHeap.intermediate c)
    (h : st.promote root = .ok st') :
    ∀ d ∈ st'.roots, d.rooted = true ∧ ∃ c, d.heap = ContainingHeap.intermediate c := by
  unfold BumpHeap.promote at h
  split at h
  case isTrue hrooted =>
    split at h
    · exact Except.noConfusion h
    · obtain rfl := Except.ok.inj h
      intro d hd
      unfold BumpHeap.finishPromote at hd
      simp only [List.mem_append, List.mem_singleton] at hd
      rcases hd with hd | rfl
      · exact hgood d hd
      · exact ⟨hrooted, _, rfl⟩
    · split at h
      · exact Except.noConfusion h
      · rename_i stM hM
        split at h
        · exact Except.noConfusion h
        · obtain rfl := Except.ok.inj h
          intro d hd
          unfold BumpHeap.finishPromote at hd
          simp only [List.mem_append, List.mem_singleton] at hd
          rcases hd with hd | rfl
          · obtain ⟨d0, hd0, hr, hh, -, -⟩ := major_roots_shape st stM hM d hd
            obtain ⟨hr0, c, hc⟩ := hgood d0 hd0
            exact ⟨hr.trans hr0, c, hh.trans hc⟩
          · exact ⟨hrooted, _, rfl⟩
        · exact Except.noConfusion h
  case isFalse =>
    obtain rfl := Except.ok.inj h
    exact hgood

theorem processRoots_good (l : List RootedInner) :
    ∀ st st₁, (∀ d ∈ st.roots, d.rooted = true ∧ ∃ c, d.heap = ContainingHeap.intermediate c) →
      BumpHeap.processRoots st l = .ok st₁ →
      ∀ d ∈ st₁.roots, d.rooted = true ∧ ∃ c, d.heap = ContainingHeap.intermediate c := by
  induction l with
  | nil =>
    intro st st₁ hgood h
    obtain rfl := Except.ok.inj h
    exact hgood
  | cons r rest ih =>
    intro st st₁ hgood h
    unfold BumpHeap.processRoots at h
    split at h
    · exact Except.noConfusion h
    · rename_i st' hp
      exact ih st' st₁ (promote_roots_good st r st' hgood hp) h

/-! # Claim theorems -/

/-- **C7** (counterexample).  The claim quantifies over *every* size
`s ≤ 32768`, but at `s = 0` the source's `assert!(size >= MINI_POCKET)` fires
and `next_up` panics instead of returning the smallest class (`Mini`). -/
theorem C7_counterexample :
    PocketSize.next_up 0 = .error .assertFailed ∧
    PocketSize.next_up 0 ≠ .ok (some .mini) :=
  ⟨rfl, fun h => Except.noConfusion h⟩

/-- **C7** (amended).  For every size `s` with `1 ≤ s ≤ 32 768`,
`PocketSize::next_up(s)` returns the smallest class among
{1, 32, 128, 2048, 8192, 32768} whose size is `≥ s`; for every `s > 32 768`
it returns `None`; at `s = 0` it panics on the assertion. -/
theorem C7_next_up_smallest (s : Nat) (h1 : 1 ≤ s) :
    (s ≤ HUGE_POCKET →
      ∃ c : PocketSize, PocketSize.next_up s = .ok (some c) ∧ s ≤ c.size ∧
        ∀ c' : PocketSize, s ≤ c'.size → c.size ≤ c'.size) ∧
    (HUGE_POCKET < s → PocketSize.next_up s = .ok none) := by
  rw [next_up_eq_smallest s h1, smallestPocketGE_eq]
  simp only [HUGE_POCKET]
  constructor
  · intro hle
    by_cases h2 : s ≤ 1
    · exact ⟨.mini, by simp [h2], by simp; omega,
        fun c' => by cases c' <;> simp <;> omega⟩
    · by_cases h3 : s ≤ 32
      · exact ⟨.tiny, by simp [h2, h3], by simp; omega,
          fun c' => by cases c' <;> simp <;> omega⟩
      · by_cases h4 : s ≤ 128
        · exact ⟨.small, by simp [h2, h3, h4], by simp; omega,
            fun c' => by cases c' <;> simp <;> omega⟩
        · by_cases h5 : s ≤ 2048
          · exact ⟨.medium, by simp [h2, h3, h4, h5], by simp; omega,
              fun c' => by cases c' <;> simp <;> omega⟩
          · by_cases h6 : s ≤ 8192
            · exact ⟨.large, by simp [h2, h3, h4, h5, h6], by simp; omega,
                fun c' => by cases c' <;> simp <;> omega⟩
            · exact ⟨.huge, by
                have h7 : s ≤ 32768 := by omega
                simp [h2, h3, h4, h5, h6, h7], by simp; omega,
                fun c' => by cases c' <;> simp <;> omega⟩
  · intro hgt
    simp [show ¬ s ≤ 1 by omega, show ¬ s ≤ 32 by omega,
      show ¬ s ≤ 128 by omega, show ¬ s ≤ 2048 by omega,
      show ¬ s ≤ 8192 by omega, show ¬ s ≤ 32768 by omega]

theorem C7_witness :
    1 ≤ 100 ∧
    ((100 ≤ HUGE_POCKET →
      ∃ c : PocketSize, PocketSize.next_up 100 = .ok (some c) ∧ 100 ≤ c.size ∧
        ∀ c' : PocketSize, 100 ≤ c'.size → c.size ≤ c'.size) ∧
    (HUGE_POCKET < 100 → PocketSize.next_up 100 = .ok none)) :=
  ⟨by decide, C7_next_up_smallest 100 (by decide)⟩

/-- **C2** (counterexample).  The claim mandates that a non-empty recycled
stack is preferred over remaining bump space.  In `flC2` the Tiny stack is
non-empty (it holds address `9000`) and bump space remains, yet
`FreeList::alloc(20)` carves address `4096` from the bump frontier, leaving
the recycled slot untouched. -/
theorem C2_counterexample :
    flC2.pockets .tiny = [9000] ∧
    FreeList.alloc flC2 20 =
      .ok (some ((4096, 32), { flC2 with current := 4128 })) ∧
    (4096 : Nat) ≠ 9000 := by
  refine ⟨rfl, rfl, by decide⟩

/-- **C2** (amended).  `FreeList::alloc(s)` panics at `s = 0` (assertion), and
otherwise selects the smallest class `c` with `c.size ≥ s` (absent when
`s > 32 768`), then (a) carves from the bump frontier whenever
`current + class_size < start + region_size` (strict bound), advancing
`current`; otherwise (b) pops the class's recycled stack if non-empty;
otherwise (c) returns absent.  Bump space is preferred over recycled slots;
recycled slots are used only once the bump frontier cannot accommodate the
class. -/
theorem C2_alloc_policy (fl : FreeList) (s : Nat) :
    FreeList.alloc fl s = FreeList.allocPolicy fl s := by
  unfold FreeList.alloc FreeList.allocPolicy
  by_cases h0 : s = 0
  · subst h0
    simp [PocketSize.next_up, MINI_POCKET]
  · rw [next_up_eq_smallest s (by omega)]
    simp only [h0, if_false]
    cases smallestPocketGE s <;> rfl

/-- **C8** (counterexample).  A request of 32 769 bytes — one byte above the
largest size class — does not fail with any error value: `FreeList::alloc`
returns `None` (`Ok none` in the embedding, no panic and no `Error`), and
the crate's `Error` enum has no `TooLarge` variant to return. -/
theorem C8_counterexample :
    FreeList.alloc (FreeList.new 4096 100000) 32769 = .ok none := rfl

/-- **C8** (amended).  For every request whose size exceeds the largest size
class (32 768 bytes), `FreeList::alloc` returns absent (`None`) rather than
an error: the `Error` enum of `src/lib.rs` consists of exactly
`OutOfSpace`, `SizeMisalign` and `NoAllocationFound`, with no `TooLarge`
variant, so the failure is signalled to the caller purely as an absent
allocation.  (`BumpHeap::alloc` panics, rather than erroring, when a single
allocation cannot fit the young generation.) -/
theorem C8_too_large_returns_none (s : Nat) (h : HUGE_POCKET < s) :
    (∀ fl : FreeList, FreeList.alloc fl s = .ok none) ∧
    (∀ e : Error, e = .OutOfSpace ∨ e = .SizeMisalign ∨ e = .NoAllocationFound) := by
  constructor
  · intro fl
    unfold FreeList.alloc
    rw [next_up_eq_smallest s (by simp [HUGE_POCKET] at h; omega), smallestPocketGE_eq]
    simp only [HUGE_POCKET] at h
    simp [show ¬ s ≤ 1 by omega, show ¬ s ≤ 32 by omega,
      show ¬ s ≤ 128 by omega, show ¬ s ≤ 2048 by omega,
      show ¬ s ≤ 8192 by omega, show ¬ s ≤ 32768 by omega]
  · intro e
    cases e <;> simp

theorem C8_witness :
    HUGE_POCKET < 40000 ∧
    ((∀ fl : FreeList, FreeList.alloc fl 40000 = .ok none) ∧
    (∀ e : Error, e = .OutOfSpace ∨ e = .SizeMisalign ∨ e = .NoAllocationFound)) :=
  ⟨by decide, C8_too_large_returns_none 40000 (by decide)⟩

/-- **C10**.  `impl Div for HeapPointer` computes *addition* (its body is
`Self(self.0 + other.into())`), while `impl DivAssign` computes genuine
division (`self.0 /= other.into()`); consequently `p / n` and `p /= n`
disagree exactly when `p + n ≠ p / n` over the underlying `usize`. -/
theorem C10_div_is_add (p : HeapPointer) (n : Nat) (hn : n ≠ 0)
    (hof : p.val + n < USIZE_MOD) :
    p.div n = ⟨p.val + n⟩ ∧
    p.divAssign n = .ok ⟨p.val / n⟩ ∧
    (p.div n ≠ (⟨p.val / n⟩ : HeapPointer) ↔ p.val + n ≠ p.val / n) := by
  refine ⟨?_, ?_, ?_⟩
  · unfold HeapPointer.div
    congr 1
    exact Nat.mod_eq_of_lt hof
  · unfold HeapPointer.divAssign
    simp [hn]
  · unfold HeapPointer.div
    rw [Nat.mod_eq_of_lt hof]
    constructor
    · intro hne heq
      exact hne (by simp [heq])
    · intro hne heq
      exact hne (congrArg HeapPointer.val heq)

/-- **C3**.  After any successful `BumpHeap::scavenge`, the Eden bump frontier
is reset (`young_current = young_start`), every byte of the Eden region
`[young_start, young_end)` is zero, and every descriptor remaining in the
registry is rooted and has `heap = Intermediate(c)` for some `c` — in
particular no descriptor has `heap = Eden` and every descriptor with
`rooted = false` has been removed. -/
theorem C3_scavenge_postconditions (st st' : BumpHeap)
    (h : st.scavenge = .ok st') :
    st'.young_current = st'.young_start ∧
    (∀ a : Nat, st'.young_start ≤ a → a < st'.young_end → st'.mem a = 0) ∧
    (∀ d ∈ st'.roots, d.rooted = true ∧ ∃ c, d.heap = ContainingHeap.intermediate c) := by
  unfold BumpHeap.scavenge at h
  split at h
  · exact Except.noConfusion h
  · rename_i st1 hpr
    obtain rfl := Except.ok.inj h
    refine ⟨rfl, ?_, ?_⟩
    · intro a ha1 ha2
      simp only at ha1 ha2 ⊢
      unfold zeroRange
      rw [if_pos ⟨ha1, by omega⟩]
    · intro d hd
      exact processRoots_good st.roots _ st1
        (fun d hd => absurd hd (List.not_mem_nil d)) hpr d hd

theorem C3_witness :
    BumpHeap.scavenge bumpC3 = .ok scavC3 ∧
    (scavC3.young_current = scavC3.young_start ∧
     (∀ a : Nat, scavC3.young_start ≤ a → a < scavC3.young_end → scavC3.mem a = 0) ∧
     (∀ d ∈ scavC3.roots, d.rooted = true ∧ ∃ c, d.heap = ContainingHeap.intermediate c)) :=
  ⟨rfl, C3_scavenge_postconditions bumpC3 scavC3 rfl⟩

/-- **C6**.  During scavenge the promotion of a rooted descriptor fails
fatally with the old-generation out-of-space panic exactly when the first
old-heap allocation returns absent, the triggered major cycle succeeds, and
the single retried allocation returns absent again; and a whole scavenge
panics with `Old Generation OOM` exactly when some root, processed after the
prefix before it succeeded, fails in that way.  In particular the collector
never dies of `OldOutOfSpace` while the retry after the major cycle would
have succeeded. -/
theorem C6_promote_retry_once :
    (∀ st : BumpHeap, ∀ root : RootedInner,
      st.promote root = .error .oldGenerationOOM ↔
        (root.rooted = true ∧ st.intermediate.alloc root.size = .ok none ∧
         ∃ stM : BumpHeap, st.major = .ok stM ∧
           stM.intermediate.alloc root.size = .ok none)) ∧
    (∀ st stM : BumpHeap, ∀ root : RootedInner, ∀ ptr psize : Nat, ∀ oh : OldHeap,
      root.rooted = true → st.intermediate.alloc root.size = .ok none →
      st.major = .ok stM →
      stM.intermediate.alloc root.size = .ok (some ((ptr, psize), oh)) →
      st.promote root = .ok (stM.finishPromote oh root ptr psize)) ∧
    (∀ st : BumpHeap,
      st.scavenge = .error .oldGenerationOOM ↔
        ∃ l₁ : List RootedInner, ∃ r : RootedInner, ∃ l₂ : List RootedInner,
          ∃ st₁ : BumpHeap, st.roots = l₁ ++ r :: l₂ ∧
          BumpHeap.processRoots { st with roots := [] } l₁ = .ok st₁ ∧
          st₁.promote r = .error .oldGenerationOOM) := by
  have hpromote : ∀ st : BumpHeap, ∀ root : RootedInner,
      st.promote root = .error .oldGenerationOOM ↔
        (root.rooted = true ∧ st.intermediate.alloc root.size = .ok none ∧
         ∃ stM : BumpHeap, st.major = .ok stM ∧
           stM.intermediate.alloc root.size = .ok none) := by
    intro st root
    constructor
    · intro h
      unfold BumpHeap.promote at h
      split at h
      case isTrue hrooted =>
        split at h
        · rename_i q hq
          have := oldHeap_alloc_error _ _ q hq
          subst this
          exact Panic.noConfusion (Except.error.inj h)
        · exact Except.noConfusion h
        · rename_i hnone
          split at h
          · rename_i q hq
            have := major_error _ q hq
            subst this
            exact Panic.noConfusion (Except.error.inj h)
          · rename_i stM hM
            split at h
            · rename_i q hq
              have := oldHeap_alloc_error _ _ q hq
              subst this
              exact Panic.noConfusion (Except.error.inj h)
            · exact Except.noConfusion h
            · exact ⟨hrooted, hnone, stM, hM, by assumption⟩
      case isFalse => exact Except.noConfusion h
    · rintro ⟨hrooted, hnone, stM, hM, hnone2⟩
      unfold BumpHeap.promote
      rw [if_pos hrooted, hnone]
      simp only [hM, hnone2]
  have hfold : ∀ l : List RootedInner, ∀ st : BumpHeap,
      BumpHeap.processRoots st l = .error .oldGenerationOOM ↔
        ∃ l₁ r l₂ st₁, l = l₁ ++ r :: l₂ ∧
          BumpHeap.processRoots st l₁ = .ok st₁ ∧
          st₁.promote r = .error .oldGenerationOOM := by
    intro l
    induction l with
    | nil =>
      intro st
      constructor
      · intro h
        exact Except.noConfusion h
      · rintro ⟨l₁, r, l₂, st₁, habs, -, -⟩
        exact absurd (List.append_eq_nil.mp habs.symm).2 (List.cons_ne_nil r l₂)
    | cons d rest ih =>
      intro st
      constructor
      · intro h
        unfold BumpHeap.processRoots at h
        split at h
        · rename_i q hq
          refine ⟨[], d, rest, st, rfl, rfl, ?_⟩
          rw [hq, Except.error.inj h]
        · rename_i st' hp
          obtain ⟨l₁, r, l₂, st₁, hsplit, hpr, herr⟩ := (ih st').mp h
          exact ⟨d :: l₁, r, l₂, st₁, by rw [hsplit, List.cons_append],
            by unfold BumpHeap.processRoots; rw [hp]; exact hpr, herr⟩
      · rintro ⟨l₁, r, l₂, st₁, hsplit, hpr, herr⟩
        cases l₁ with
        | nil =>
          simp only [List.nil_append] at hsplit
          obtain ⟨rfl, rfl⟩ := List.cons.inj hsplit
          obtain rfl := Except.ok.inj hpr
          unfold BumpHeap.processRoots
          rw [herr]
        | cons d' l₁' =>
          simp only [List.cons_append] at hsplit
          obtain ⟨rfl, hsplit2⟩ := List.cons.inj hsplit
          unfold BumpHeap.processRoots at hpr ⊢
          split at hpr
          · exact Except.noConfusion hpr
          · rename_i st'' hp
            exact (ih st'').mpr ⟨l₁', r, l₂, st₁, hsplit2, hpr, herr⟩
  refine ⟨hpromote, ?_, ?_⟩
  · intro st stM root ptr psize oh hrooted hnone hM hsome
    unfold BumpHeap.promote
    rw [if_pos hrooted, hnone]
    simp only [hM, hsome]
  intro st
  unfold BumpHeap.scavenge
  constructor
  · intro h
    split at h
    · rename_i q hq
      obtain rfl : q = Panic.oldGenerationOOM := Except.error.inj h
      exact (hfold st.roots _).mp hq
    · exact Except.noConfusion h
  · intro hex
    have := (hfold st.roots { st with roots := [] }).mpr hex
    rw [this]

theorem major_st6 : st6.major = .ok stM6 := by
  have hcol : st6.intermediate.collect st6.roots st6.mem =
      .ok (stM6.intermediate, [], st6.mem) := by
    have hsw : sweepRoots st6.intermediate.free_list st6.roots =
        .ok (st6.intermediate.free_list, []) := rfl
    have hfrag : (1 / 2 : ℚ) < OldHeap.fragmentation ⟨st6.intermediate.free_list⟩ := by
      unfold OldHeap.fragmentation st6 OldHeap.from_region FreeList.new
      norm_num
    unfold OldHeap.collect
    simp only [hsw]
    rw [if_pos hfrag]
    rfl
  unfold BumpHeap.major
  rw [hcol]
  rfl

theorem C6_witness :
    (root6.rooted = true ∧ st6.intermediate.alloc root6.size = .ok none ∧
     st6.major = .ok stM6 ∧ stM6.intermediate.alloc root6.size = .ok none) ∧
    st6.promote root6 = .error .oldGenerationOOM :=
  ⟨⟨rfl, rfl, major_st6, rfl⟩,
   (C6_promote_retry_once.1 st6 root6).mpr ⟨rfl, rfl, stM6, major_st6, rfl⟩⟩

/-- **C4** (code bug).  The claim (and §4.3 of the specification) requires
`collect` to compact exactly when `1 − (current − start)/region_size > 0.50`.
The source instead computes `1.0 - (free_list.start as f32 / size as f32)` —
the *absolute start address* in place of `current − start` — and compares it
against `50.0`.  On `shC4` the specified metric is `31/32 > 1/2` (so the
specified `collect` would compact), while the source's metric is `−3`,
the guard `> 50.0` is false, and in fact the source's metric is bounded by
`1` for *every* heap, so `collect` never compacts: it always equals `sweep`
alone. -/
theorem C4_fragmentation_guard_dead :
    specFragmentation shC4 = 31 / 32 ∧
    (1 / 2 : ℚ) < specFragmentation shC4 ∧
    SweepHeap.fragmentation shC4 = -3 ∧
    ¬ 50 < SweepHeap.fragmentation shC4 ∧
    (∀ h : SweepHeap, SweepHeap.fragmentation h ≤ 1) ∧
    (∀ fuel : Nat, ∀ h : SweepHeap,
      SweepHeap.collect fuel h = SweepHeap.sweep fuel h) := by
  refine ⟨?_, ?_, ?_, ?_, fragmentation_le_one, collect_eq_sweep⟩
  · unfold specFragmentation shC4
    norm_num
  · unfold specFragmentation shC4
    norm_num
  · unfold SweepHeap.fragmentation shC4
    norm_num
  · unfold SweepHeap.fragmentation shC4
    norm_num

/-- **C5** (code bug).  `SweepHeap::compact` has an empty body, so after a
collection "with compaction" nothing is compacted: starting from `shC4`
(one dead Tiny pocket at `4096`, frontier at `4128`), sweeping reclaims the
pocket onto the Tiny stack and a subsequent `compact` leaves the stack
non-empty (`[4096]`) and the frontier at `4128`, whereas the claim requires
all class stacks empty and the frontier at
`start + Σ pocket sizes of survivors = 4096 + 0`. -/
theorem C5_compact_is_noop :
    (∀ h : SweepHeap, SweepHeap.compact h = h) ∧
    SweepHeap.sweep 10 shC4 = some (.ok shC4sw) ∧
    (SweepHeap.compact shC4sw).free_list.pockets .tiny = [4096] ∧
    (SweepHeap.compact shC4sw).free_list.pockets .tiny ≠ [] ∧
    (SweepHeap.compact shC4sw).free_list.current = 4128 ∧
    (SweepHeap.compact shC4sw).free_list.current ≠ shC4sw.free_list.start + 0 := by
  refine ⟨fun _ => rfl, rfl, rfl, ?_, rfl, ?_⟩
  · intro hcon
    exact List.noConfusion hcon
  · intro hcon
    simp [SweepHeap.compact, shC4sw] at hcon

/-- **C9**.  `SweepHeap::get::<T>(id)` returns `NoAllocationFound` when `id`
is not in any of the three maps, `SizeMisalign` when the recorded size
differs from `size_of::<T>`, and otherwise `Ok` with the stored bytes (a
fresh allocation's `get` at the correct size returns exactly the bytes that
were stored); `get` takes `&self`, so the heap is unchanged in all cases —
in the embedding it is a pure function that returns no updated heap. -/
theorem C9_get_characterization (h : SweepHeap) (tsize id : Nat)
    (hWF : SweepHeapIdsBounded h) :
    (h.get_weight id = none → h.get tsize id = .error .NoAllocationFound) ∧
    (∀ w : Weight, h.get_weight id = some w → w.size ≠ tsize →
      h.get tsize id = .error .SizeMisalign) ∧
    (∀ w : Weight, h.get_weight id = some w → w.size = tsize →
      h.get tsize id = .ok (readBytes h.mem w.ptr tsize)) ∧
    (∀ bytes : List Nat, ∀ h' : SweepHeap, ∀ idn : Nat,
      h.alloc bytes = .ok (some (h', idn)) →
      h'.get bytes.length idn = .ok bytes) := by
  refine ⟨?_, ?_, ?_, ?_⟩
  · intro hnone
    unfold SweepHeap.get
    rw [hnone]
  · intro w hw hne
    unfold SweepHeap.get
    rw [hw]
    simp [hne]
  · intro w hw heq
    unfold SweepHeap.get
    rw [hw]
    simp [heq]
  · intro bytes h' idn halloc
    unfold SweepHeap.alloc at halloc
    split at halloc
    · exact Except.noConfusion halloc
    · exact Option.noConfusion (Except.ok.inj halloc)
    · rename_i ptr pocket_size fl heq
      split at halloc
      · exact Except.noConfusion halloc
      · rename_i pocket hfp
        have hpair := Option.some.inj (Except.ok.inj halloc)
        obtain ⟨hh', hid⟩ := Prod.mk.inj hpair
        subst hid
        subst hh'
        have hblack : SweepHeap.lookupW h.black h.next_id = none :=
          lookupW_none_of_forall_ne _ _
            (fun p hp => Nat.ne_of_lt (hWF p (by simp [hp])))
        have hgrey : SweepHeap.lookupW h.grey h.next_id = none :=
          lookupW_none_of_forall_ne _ _
            (fun p hp => Nat.ne_of_lt (hWF p (by simp [hp])))
        unfold SweepHeap.get SweepHeap.get_weight
        simp only [hblack, hgrey,
          lookupW_insert_self h.white h.next_id (Weight.new ptr bytes.length pocket)]
        simp [Weight.new, readBytes_writeBytes]

theorem C9_witness :
    SweepHeapIdsBounded (SweepHeap.new 4096 10000) ∧
    (((SweepHeap.new 4096 10000).get_weight 5 = none →
      (SweepHeap.new 4096 10000).get 2 5 = .error .NoAllocationFound) ∧
    (∀ w : Weight, (SweepHeap.new 4096 10000).get_weight 5 = some w → w.size ≠ 2 →
      (SweepHeap.new 4096 10000).get 2 5 = .error .SizeMisalign) ∧
    (∀ w : Weight, (SweepHeap.new 4096 10000).get_weight 5 = some w → w.size = 2 →
      (SweepHeap.new 4096 10000).get 2 5 =
        .ok (readBytes (SweepHeap.new 4096 10000).mem w.ptr 2)) ∧
    (∀ bytes : List Nat, ∀ h' : SweepHeap, ∀ idn : Nat,
      (SweepHeap.new 4096 10000).alloc bytes = .ok (some (h', idn)) →
      h'.get bytes.length idn = .ok bytes)) :=
  ⟨fun p hp => by simp [SweepHeap.new] at hp,
   C9_get_characterization (SweepHeap.new 4096 10000) 2 5
     (fun p hp => by simp [SweepHeap.new] at hp)⟩

theorem C10_witness :
    (3 : Nat) ≠ 0 ∧ (10 : Nat) + 3 < USIZE_MOD ∧
    ((⟨10⟩ : HeapPointer).div 3 = ⟨13⟩ ∧
     (⟨10⟩ : HeapPointer).divAssign 3 = .ok ⟨3⟩ ∧
     ((⟨10⟩ : HeapPointer).div 3 ≠ (⟨10 / 3⟩ : HeapPointer) ↔ (10 : Nat) + 3 ≠ 10 / 3)) :=
  ⟨by decide, by norm_num [USIZE_MOD], by
    have h := C10_div_is_add ⟨10⟩ 3 (by decide) (by norm_num [USIZE_MOD])
    simpa using h⟩

/-! # Memory lemmas for the C1 development -/

theorem readBytes_length (m : Mem) (p n : Nat) : (readBytes m p n).length = n := by
  unfold readBytes
  simp

theorem readBytes_congr (m m' : Mem) (p n : Nat)
    (h : ∀ a, p ≤ a → a < p + n → m a = m' a) :
    readBytes m p n = readBytes m' p n := by
  unfold readBytes
  apply List.map_congr_left
  intro i hi
  exact h (p + i) (Nat.le_add_right _ _) (by simpa using List.mem_range.mp hi)

theorem writeBytes_apply_out (m : Mem) (p : Nat) (bs : List Nat) (a : Nat)
    (h : a < p ∨ p + bs.length ≤ a) : writeBytes m p bs a = m a := by
  unfold writeBytes
  rw [if_neg]
  omega

theorem zeroRange_apply_out (m : Mem) (p n a : Nat)
    (h : a < p ∨ p + n ≤ a) : zeroRange m p n a = m a := by
  unfold zeroRange
  rw [if_neg]
  omega

theorem zeroRange_apply_in (m : Mem) (p n a : Nat)
    (h1 : p ≤ a) (h2 : a < p + n) : zeroRange m p n a = 0 := by
  unfold zeroRange
  rw [if_pos ⟨h1, h2⟩]

theorem readBytes_writeBytes_len (m : Mem) (p : Nat) (bs : List Nat) (n : Nat)
    (hn : n = bs.length) : readBytes (writeBytes m p bs) p n = bs :=
  hn ▸ readBytes_writeBytes m p bs

theorem readBytes_writeBytes_disj (m : Mem) (p : Nat) (bs : List Nat)
    (q n : Nat) (h : DisjP (q, n) (p, bs.length)) :
    readBytes (writeBytes m p bs) q n = readBytes m q n := by
  apply readBytes_congr
  intro a ha1 ha2
  apply writeBytes_apply_out
  rcases h with h | h <;> simp only at h <;> omega

theorem readBytes_zeroRange_disj (m : Mem) (p len q n : Nat)
    (h : DisjP (q, n) (p, len)) :
    readBytes (zeroRange m p len) q n = readBytes m q n := by
  apply readBytes_congr
  intro a ha1 ha2
  apply zeroRange_apply_out
  rcases h with h | h <;> simp only at h <;> omega

theorem DisjP_symm {s t : Nat × Nat} (h : DisjP s t) : DisjP t s := h.symm

theorem DisjP.symmetric : Symmetric DisjP := fun _ _ h => DisjP_symm h

theorem pairwise_perm_disj {l l' : List (Nat × Nat)} (hp : l.Perm l')
    (h : l.Pairwise DisjP) : l'.Pairwise DisjP :=
  (List.Perm.pairwise_iff (fun {_ _} hab => DisjP_symm hab) hp).mp h

theorem DisjP_mono {s t s' t' : Nat × Nat} (h : DisjP s t)
    (hs1 : s.1 ≤ s'.1) (hs2 : s'.1 + s'.2 ≤ s.1 + s.2)
    (ht1 : t.1 ≤ t'.1) (ht2 : t'.1 + t'.2 ≤ t.1 + t.2) : DisjP s' t' := by
  unfold DisjP at h ⊢
  omega

/-! # Size-class and free-list lemmas for the C1 development -/

theorem size_mem_pockets (k : PocketSize) : k.size ∈ PocketSize.MEMORY_POCKETS := by
  cases k <;> simp [PocketSize.MEMORY_POCKETS, PocketSize.size]

theorem mem_pockets_iff (c : Nat) :
    c ∈ PocketSize.MEMORY_POCKETS ↔ ∃ k : PocketSize, k.size = c := by
  constructor
  · intro h
    simp [PocketSize.MEMORY_POCKETS, MINI_POCKET, TINY_POCKET, SMALL_POCKET,
      MEDIUM_POCKET, LARGE_POCKET, HUGE_POCKET] at h
    rcases h with rfl | rfl | rfl | rfl | rfl | rfl
    · exact ⟨.mini, rfl⟩
    · exact ⟨.tiny, rfl⟩
    · exact ⟨.small, rfl⟩
    · exact ⟨.medium, rfl⟩
    · exact ⟨.large, rfl⟩
    · exact ⟨.huge, rfl⟩
  · rintro ⟨k, rfl⟩
    exact size_mem_pockets k

theorem pocket_size_pos (k : PocketSize) : 1 ≤ k.size := by
  cases k <;> simp

theorem pocket_size_inj {k k' : PocketSize} (h : k.size = k'.size) : k = k' := by
  cases k <;> cases k' <;> first | rfl | simp_all

theorem from_pocket_size_size (k : PocketSize) :
    PocketSize.from_pocket_size k.size = .ok k := by
  cases k <;> rfl

theorem next_up_some_ge {s : Nat} {k : PocketSize}
    (h : PocketSize.next_up s = .ok (some k)) : 1 ≤ s ∧ s ≤ k.size := by
  by_cases h0 : s = 0
  · subst h0
    exact Except.noConfusion h
  · rw [next_up_eq_smallest s (by omega), smallestPocketGE_eq] at h
    split_ifs at h <;>
      first
      | (obtain rfl := Option.some.inj (Except.ok.inj h);
         exact ⟨by omega, by
           simp only [size_mini, size_tiny, size_small, size_medium,
             size_large, size_huge]
           omega⟩)
      | exact Option.noConfusion (Except.ok.inj h)

theorem next_up_min {s : Nat} {k : PocketSize}
    (h : PocketSize.next_up s = .ok (some k)) :
    ∀ k' : PocketSize, s ≤ k'.size → k.size ≤ k'.size := by
  by_cases h0 : s = 0
  · subst h0
    exact Except.noConfusion h
  · rw [next_up_eq_smallest s (by omega), smallestPocketGE_eq] at h
    split_ifs at h <;>
      first
      | (obtain rfl := Option.some.inj (Except.ok.inj h);
         intro k' hk'; cases k' <;>
           simp only [size_mini, size_tiny, size_small, size_medium,
             size_large, size_huge] at hk' ⊢ <;> omega)
      | exact Option.noConfusion (Except.ok.inj h)

theorem freeSlotsOver_congr (L : List PocketSize) (fl1 fl2 : FreeList)
    (h : ∀ q ∈ L, fl1.pockets q = fl2.pockets q) :
    freeSlotsOver L fl1 = freeSlotsOver L fl2 := by
  unfold freeSlotsOver
  induction L with
  | nil => rfl
  | cons p rest ih =>
    simp only [List.flatMap_cons]
    rw [h p (List.mem_cons_self p rest), ih (fun q hq => h q (List.mem_cons_of_mem p hq))]

theorem freeSlotsOver_push (k : PocketSize) (v : Nat) :
    ∀ (L : List PocketSize), k ∈ L → L.Nodup → ∀ fl : FreeList,
    (freeSlotsOver L
      { fl with pockets := fun q => if q = k then v :: fl.pockets q else fl.pockets q }).Perm
      ((v, k.size) :: freeSlotsOver L fl) := by
  intro L
  induction L with
  | nil => intro hk; exact absurd hk (List.not_mem_nil k)
  | cons p rest ih =>
    intro hk hnd fl
    rcases List.mem_cons.mp hk with rfl | hk'
    · have hkrest : k ∉ rest := (List.nodup_cons.mp hnd).1
      unfold freeSlotsOver
      simp only [List.flatMap_cons, if_pos rfl]
      have htail : freeSlotsOver rest
          { fl with pockets := fun q => if q = k then v :: fl.pockets q else fl.pockets q } =
          freeSlotsOver rest fl := by
        apply freeSlotsOver_congr
        intro q hq
        simp only
        rw [if_neg (show ¬ q = k from fun hqp => hkrest (hqp ▸ hq))]
      unfold freeSlotsOver at htail
      rw [htail]
      first
      | exact List.Perm.refl _
      | (simp only [List.map_cons, List.cons_append]; exact List.Perm.refl _)
    · have hpk : p ≠ k := by
        rintro rfl
        exact (List.nodup_cons.mp hnd).1 hk'
      unfold freeSlotsOver
      simp only [List.flatMap_cons]
      have hhead : ((if p = k then v :: fl.pockets p else fl.pockets p).map
          (fun q => (q, p.size))) = (fl.pockets p).map (fun q => (q, p.size)) := by
        rw [if_neg hpk]
      rw [hhead]
      have ihperm := ih hk' (List.nodup_cons.mp hnd).2 fl
      unfold freeSlotsOver at ihperm
      exact (List.Perm.append_left _ ihperm).trans List.perm_middle

theorem freeSlotsOver_pop (k : PocketSize) (v : Nat) (rest : List Nat) :
    ∀ (L : List PocketSize), k ∈ L → L.Nodup → ∀ fl : FreeList,
    fl.pockets k = v :: rest →
    (freeSlotsOver L fl).Perm ((v, k.size) ::
      freeSlotsOver L { fl with pockets := fun q => if q = k then rest else fl.pockets q }) := by
  intro L
  induction L with
  | nil => intro hk; exact absurd hk (List.not_mem_nil k)
  | cons p rest' ih =>
    intro hk hnd fl hpk
    rcases List.mem_cons.mp hk with rfl | hk'
    · have hkrest : k ∉ rest' := (List.nodup_cons.mp hnd).1
      unfold freeSlotsOver
      simp only [List.flatMap_cons, if_pos rfl, hpk]
      have htail : freeSlotsOver rest'
          { fl with pockets := fun q => if q = k then rest else fl.pockets q } =
          freeSlotsOver rest' fl := by
        apply freeSlotsOver_congr
        intro q hq
        simp only
        rw [if_neg (show ¬ q = k from fun hqp => hkrest (hqp ▸ hq))]
      unfold freeSlotsOver at htail
      rw [htail]
      first
      | exact List.Perm.refl _
      | (simp only [List.map_cons, List.cons_append]; exact List.Perm.refl _)
    · have hpk' : p ≠ k := by
        rintro rfl
        exact (List.nodup_cons.mp hnd).1 hk'
      unfold freeSlotsOver
      simp only [List.flatMap_cons]
      have hhead : ((if p = k then rest else fl.pockets p).map
          (fun q => (q, p.size))) = (fl.pockets p).map (fun q => (q, p.size)) := by
        rw [if_neg hpk']
      rw [hhead]
      have ihperm := ih hk' (List.nodup_cons.mp hnd).2 fl hpk
      unfold freeSlotsOver at ihperm
      exact (List.Perm.append_left _ ihperm).trans List.perm_middle

theorem allPockets_mem (k : PocketSize) : k ∈ PocketSize.allPockets := by
  cases k <;> simp [PocketSize.allPockets]

theorem allPockets_nodup : PocketSize.allPockets.Nodup := by
  simp [PocketSize.allPockets]

theorem freeSlots_push (k : PocketSize) (v : Nat) (fl : FreeList) :
    (freeSlots
      { fl with pockets := fun q => if q = k then v :: fl.pockets q else fl.pockets q }).Perm
      ((v, k.size) :: freeSlots fl) :=
  freeSlotsOver_push k v PocketSize.allPockets (allPockets_mem k) allPockets_nodup fl

theorem freeSlots_pop (k : PocketSize) (v : Nat) (rest : List Nat) (fl : FreeList)
    (h : fl.pockets k = v :: rest) :
    (freeSlots fl).Perm ((v, k.size) ::
      freeSlots { fl with pockets := fun q => if q = k then rest else fl.pockets q }) :=
  freeSlotsOver_pop k v rest PocketSize.allPockets (allPockets_mem k) allPockets_nodup fl h

theorem fl_alloc_some {fl : FreeList} {s ptr psize : Nat} {fl' : FreeList}
    (h : fl.alloc s = .ok (some ((ptr, psize), fl'))) :
    ∃ k : PocketSize, PocketSize.next_up s = .ok (some k) ∧ psize = k.size ∧
    ((fl.current + k.size < fl.start + fl.size ∧ ptr = fl.current ∧
      fl' = { fl with current := fl.current + k.size }) ∨
     (¬ fl.current + k.size < fl.start + fl.size ∧ ∃ rest, fl.pockets k = ptr :: rest ∧
      fl' = { fl with pockets := fun q => if q = k then rest else fl.pockets q })) := by
  unfold FreeList.alloc at h
  split at h
  · exact Except.noConfusion h
  · exact Option.noConfusion (Except.ok.inj h)
  · rename_i k hk
    refine ⟨k, hk, ?_⟩
    by_cases hc : fl.current + k.size < fl.start + fl.size
    · rw [if_pos hc] at h
      have hinj := Option.some.inj (Except.ok.inj h)
      obtain ⟨h1, h2⟩ := Prod.mk.inj hinj
      obtain ⟨hp, hs⟩ := Prod.mk.inj h1
      exact ⟨hs.symm, Or.inl ⟨hc, hp.symm, h2.symm⟩⟩
    · rw [if_neg hc] at h
      split at h
      · rename_i v0 rest0 hpk
        have hinj := Option.some.inj (Except.ok.inj h)
        obtain ⟨h1, h2⟩ := Prod.mk.inj hinj
        obtain ⟨hp, hs⟩ := Prod.mk.inj h1
        exact ⟨hs.symm, Or.inr ⟨hc, rest0, by rw [hpk, hp], h2.symm⟩⟩
      · exact Option.noConfusion (Except.ok.inj h)

theorem fl_alloc_none {fl : FreeList} {s : Nat} (h : fl.alloc s = .ok none) :
    PocketSize.next_up s = .ok none ∨
    ∃ k : PocketSize, PocketSize.next_up s = .ok (some k) ∧
      ¬ fl.current + k.size < fl.start + fl.size ∧ fl.pockets k = [] := by
  unfold FreeList.alloc at h
  split at h
  · exact Except.noConfusion h
  · rename_i hk
    exact Or.inl hk
  · rename_i k hk
    by_cases hc : fl.current + k.size < fl.start + fl.size
    · rw [if_pos hc] at h
      exact Option.noConfusion (Except.ok.inj h)
    · rw [if_neg hc] at h
      split at h
      · exact Option.noConfusion (Except.ok.inj h)
      · rename_i hpk
        exact Or.inr ⟨k, hk, hc, hpk⟩

theorem oh_alloc_some {oh : OldHeap} {s ptr psize : Nat} {oh' : OldHeap}
    (h : oh.alloc s = .ok (some ((ptr, psize), oh'))) :
    oh.free_list.alloc s = .ok (some ((ptr, psize), oh'.free_list)) := by
  unfold OldHeap.alloc at h
  split at h
  · exact Except.noConfusion h
  · exact Option.noConfusion (Except.ok.inj h)
  · rename_i pr fl hfl
    have hinj := Option.some.inj (Except.ok.inj h)
    obtain ⟨h1, h2⟩ := Prod.mk.inj hinj
    subst h1
    rw [hfl, ← h2]

theorem oh_alloc_none {oh : OldHeap} {s : Nat} (h : oh.alloc s = .ok none) :
    oh.free_list.alloc s = .ok none := by
  unfold OldHeap.alloc at h
  split at h
  · exact Except.noConfusion h
  · assumption
  · exact Option.noConfusion (Except.ok.inj h)

theorem reclaim_ok {c : Nat} (v : Nat) (fl : FreeList)
    (hc : c ∈ PocketSize.MEMORY_POCKETS) :
    ∃ k : PocketSize, k.size = c ∧
      PocketSize.reclaim c v fl =
        .ok { fl with pockets := fun q => if q = k then v :: fl.pockets q else fl.pockets q } := by
  obtain ⟨k, hk⟩ := (mem_pockets_iff c).mp hc
  refine ⟨k, hk, ?_⟩
  unfold PocketSize.reclaim
  rw [← hk, from_pocket_size_size k]

/-! # Layout and gather-write lemmas for the spec-modelled compaction -/

theorem layoutAux_mem_fst {l : List RootedInner} :
    ∀ {base : Nat} {da : RootedInner × Nat}, da ∈ layoutAux base l → da.1 ∈ l := by
  induction l with
  | nil => intro base da h; exact absurd h (List.not_mem_nil da)
  | cons d rest ih =>
    intro base da h
    unfold layoutAux at h
    split at h
    · rcases List.mem_cons.mp h with rfl | h'
      · exact List.mem_cons_self d rest
      · exact List.mem_cons_of_mem d (ih h')
    · exact List.mem_cons_of_mem d (ih h)

theorem layoutAux_base_le {l : List RootedInner} :
    ∀ {base : Nat} {da : RootedInner × Nat}, da ∈ layoutAux base l → base ≤ da.2 := by
  induction l with
  | nil => intro base da h; exact absurd h (List.not_mem_nil da)
  | cons d rest ih =>
    intro base da h
    unfold layoutAux at h
    split at h
    · rcases List.mem_cons.mp h with rfl | h'
      · exact Nat.le_refl _
      · exact le_trans (Nat.le_add_right _ _) (ih h')
    · exact ih h

theorem layoutAux_pairwise (l : List RootedInner) :
    ∀ base : Nat, (layoutAux base l).Pairwise
      (fun x y => x.2 + descExtent x.1 ≤ y.2) := by
  induction l with
  | nil => intro base; exact List.Pairwise.nil
  | cons d rest ih =>
    intro base
    unfold layoutAux
    split
    · rename_i c hc
      refine List.Pairwise.cons ?_ (ih _)
      intro y hy
      have hext : descExtent d = c := by unfold descExtent; rw [hc]
      rw [hext]
      exact layoutAux_base_le hy
    · exact ih base

theorem layoutAux_find {l : List RootedInner}
    (hl : ∀ d ∈ l, ∃ c, d.heap = ContainingHeap.intermediate c)
    (hnd : (l.map RootedInner.id).Nodup) {d : RootedInner} (hd : d ∈ l) :
    ∀ base : Nat, ∃ a : Nat,
      (layoutAux base l).find? (fun da => da.1.id = d.id) = some (d, a) ∧
      (d, a) ∈ layoutAux base l := by
  induction l with
  | nil => exact absurd hd (List.not_mem_nil d)
  | cons d0 rest ih =>
    intro base
    obtain ⟨c0, hc0⟩ := hl d0 (List.mem_cons_self d0 rest)
    unfold layoutAux
    rw [hc0]
    simp only
    rcases List.mem_cons.mp hd with rfl | hd'
    · exact ⟨base, by rw [List.find?_cons_of_pos _ (by simp)], List.mem_cons_self _ _⟩
    · have hne : d0.id ≠ d.id := by
        intro he
        have : d.id ∈ rest.map RootedInner.id := List.mem_map_of_mem _ hd'
        rw [← he] at this
        exact (List.nodup_cons.mp hnd).1 this
      obtain ⟨a, hfind, hmem⟩ := ih (fun x hx => hl x (List.mem_cons_of_mem d0 hx))
        (List.nodup_cons.mp hnd).2 hd' (base + c0)
      exact ⟨a, by rw [List.find?_cons_of_neg _ (by simp [hne])]; exact hfind,
        List.mem_cons_of_mem _ hmem⟩

theorem foldl_max_ge_init (l : List (RootedInner × Nat)) (g : RootedInner × Nat → Nat) :
    ∀ init : Nat, init ≤ l.foldl (fun acc x => max acc (g x)) init := by
  induction l with
  | nil => intro init; exact Nat.le_refl _
  | cons x rest ih =>
    intro init
    exact le_trans (Nat.le_max_left _ _) (ih _)

theorem foldl_max_ge_mem (l : List (RootedInner × Nat)) (g : RootedInner × Nat → Nat) :
    ∀ init : Nat, ∀ x ∈ l, g x ≤ l.foldl (fun acc a => max acc (g a)) init := by
  induction l with
  | nil => intro init x hx; exact absurd hx (List.not_mem_nil x)
  | cons y rest ih =>
    intro init x hx
    rcases List.mem_cons.mp hx with rfl | hx'
    · exact le_trans (Nat.le_max_right _ _) (foldl_max_ge_init rest g _)
    · exact ih _ x hx'

theorem foldl_write_preserve (mem : Mem) (assign : List (RootedInner × Nat)) :
    ∀ (m : Mem) (q n : Nat),
    (∀ da ∈ assign, DisjP (q, n) (da.2, da.1.size)) →
    readBytes (assign.foldl
      (fun m' da => writeBytes m' da.2 (readBytes mem da.1.value da.1.size)) m) q n =
    readBytes m q n := by
  induction assign with
  | nil => intro m q n _; rfl
  | cons da rest ih =>
    intro m q n hdisj
    simp only [List.foldl_cons]
    rw [ih _ q n (fun x hx => hdisj x (List.mem_cons_of_mem da hx))]
    rw [readBytes_writeBytes_disj]
    rw [readBytes_length]
    exact hdisj da (List.mem_cons_self da rest)

theorem foldl_write_self (mem : Mem) (assign : List (RootedInner × Nat))
    (hpw : assign.Pairwise (fun x y => DisjP (x.2, x.1.size) (y.2, y.1.size))) :
    ∀ (m : Mem), ∀ da ∈ assign,
    readBytes (assign.foldl
      (fun m' x => writeBytes m' x.2 (readBytes mem x.1.value x.1.size)) m) da.2 da.1.size =
    readBytes mem da.1.value da.1.size := by
  induction assign with
  | nil => intro m da hda; exact absurd hda (List.not_mem_nil da)
  | cons x rest ih =>
    intro m da hda
    simp only [List.foldl_cons]
    rcases List.mem_cons.mp hda with rfl | hda'
    · rw [foldl_write_preserve mem rest _ _ _
        (fun y hy => (List.pairwise_cons.mp hpw).1 y hy)]
      exact readBytes_writeBytes_len _ _ _ _ (readBytes_length _ _ _).symm
    · exact ih (List.pairwise_cons.mp hpw).2 _ da hda'

/-! # Registry order and pairwise-extraction helpers -/

theorem segregated_nil : Segregated [] :=
  ⟨[], [], rfl, fun d hd => absurd hd (List.not_mem_nil d),
    fun d hd => absurd hd (List.not_mem_nil d)⟩

theorem segregated_of_all_int {l : List RootedInner}
    (h : ∀ d ∈ l, ∃ c, d.heap = ContainingHeap.intermediate c) : Segregated l :=
  ⟨l, [], (List.append_nil l).symm, h, fun d hd => absurd hd (List.not_mem_nil d)⟩

theorem segregated_of_all_eden {l : List RootedInner}
    (h : ∀ d ∈ l, d.heap = ContainingHeap.eden) : Segregated l :=
  ⟨[], l, rfl, fun d hd => absurd hd (List.not_mem_nil d), h⟩

theorem segregated_sublist {l l' : List RootedInner} (hsub : l'.Sublist l)
    (h : Segregated l) : Segregated l' := by
  obtain ⟨l₁, l₂, rfl, h1, h2⟩ := h
  obtain ⟨m₁, m₂, rfl, hm1, hm2⟩ := List.sublist_append_iff.mp hsub
  exact ⟨m₁, m₂, rfl, fun d hd => h1 d (hm1.mem hd), fun d hd => h2 d (hm2.mem hd)⟩

theorem segregated_map {l : List RootedInner} (f : RootedInner → RootedInner)
    (hf : ∀ d, (f d).heap = d.heap) (h : Segregated l) : Segregated (l.map f) := by
  obtain ⟨l₁, l₂, rfl, h1, h2⟩ := h
  refine ⟨l₁.map f, l₂.map f, by rw [List.map_append], ?_, ?_⟩
  · intro d hd
    obtain ⟨d0, hd0, rfl⟩ := List.mem_map.mp hd
    obtain ⟨c, hc⟩ := h1 d0 hd0
    exact ⟨c, (hf d0).trans hc⟩
  · intro d hd
    obtain ⟨d0, hd0, rfl⟩ := List.mem_map.mp hd
    exact (hf d0).trans (h2 d0 hd0)

theorem segregated_append_eden {l : List RootedInner} (h : Segregated l)
    (d : RootedInner) (hd : d.heap = ContainingHeap.eden) : Segregated (l ++ [d]) := by
  obtain ⟨l₁, l₂, rfl, h1, h2⟩ := h
  refine ⟨l₁, l₂ ++ [d], by rw [List.append_assoc], h1, ?_⟩
  intro x hx
  rcases List.mem_append.mp hx with hx' | hx'
  · exact h2 x hx'
  · rw [List.mem_singleton.mp hx']
    exact hd

theorem segregated_head_eden {r : RootedInner} {R : List RootedInner}
    (h : Segregated (r :: R)) (hr : r.heap = ContainingHeap.eden) :
    ∀ d ∈ R, d.heap = ContainingHeap.eden := by
  obtain ⟨l₁, l₂, heq, h1, h2⟩ := h
  cases l₁ with
  | nil =>
    intro d hd
    exact h2 d (by rw [← List.nil_append l₂, ← heq]; exact List.mem_cons_of_mem r hd)
  | cons x l₁' =>
    obtain ⟨rfl, -⟩ := List.cons.inj heq
    obtain ⟨c, hc⟩ := h1 r (List.mem_cons_self r l₁')
    rw [hr] at hc
    exact ContainingHeap.noConfusion hc

theorem segregated_tail {r : RootedInner} {R : List RootedInner}
    (h : Segregated (r :: R)) : Segregated R :=
  segregated_sublist (List.sublist_cons_self r R) h

theorem ids_inj {l : List RootedInner} (hnd : (l.map RootedInner.id).Nodup)
    {d d' : RootedInner} (hd : d ∈ l) (hd' : d' ∈ l) (h : d.id = d'.id) : d = d' :=
  List.inj_on_of_nodup_map hnd hd hd' h

theorem pairwise_spans_forall {l : List RootedInner}
    (hnd : (l.map RootedInner.id).Nodup)
    (h : (l.map descSpan).Pairwise DisjP) :
    ∀ d ∈ l, ∀ d' ∈ l, d.id ≠ d'.id → DisjP (descSpan d) (descSpan d') := by
  intro d hd d' hd' hne
  have hpw : l.Pairwise (fun a b => DisjP (descSpan a) (descSpan b)) :=
    (List.pairwise_map.mp h)
  have hdd' : d ≠ d' := fun he => hne (he ▸ rfl)
  exact List.Pairwise.forall (fun {a b} hab => DisjP_symm hab) hpw hd hd' hdd'

/-! # Compaction-order lemmas -/

theorem compactOrder_sub {roots : List RootedInner} :
    ∀ d ∈ compactOrder roots, d ∈ roots := by
  intro d hd
  unfold compactOrder at hd
  obtain ⟨k, -, hmem⟩ := List.mem_flatMap.mp hd
  exact (List.mem_filter.mp hmem).1

theorem compactOrder_int {roots : List RootedInner} :
    ∀ d ∈ compactOrder roots, ∃ k : PocketSize,
      d.heap = ContainingHeap.intermediate k.size := by
  intro d hd
  unfold compactOrder at hd
  obtain ⟨k, -, hmem⟩ := List.mem_flatMap.mp hd
  exact ⟨k, of_decide_eq_true (List.mem_filter.mp hmem).2⟩

theorem compactOrder_mem {roots : List RootedInner} {d : RootedInner} {c : Nat}
    (hd : d ∈ roots) (hheap : d.heap = ContainingHeap.intermediate c)
    {k : PocketSize} (hk : k.size = c) : d ∈ compactOrder roots := by
  unfold compactOrder
  refine List.mem_flatMap.mpr ⟨k, allPockets_mem k, ?_⟩
  exact List.mem_filter.mpr ⟨hd, decide_eq_true (by rw [hheap, hk])⟩

theorem compactOrder_nodup {roots : List RootedInner}
    (hnd : (roots.map RootedInner.id).Nodup) :
    ((compactOrder roots).map RootedInner.id).Nodup := by
  unfold compactOrder
  have haux : ∀ L : List PocketSize, L.Nodup →
      ((L.flatMap (fun k => roots.filter
        (fun d => d.heap = ContainingHeap.intermediate k.size))).map RootedInner.id).Nodup := by
    intro L
    induction L with
    | nil => intro _; exact List.nodup_nil
    | cons k rest ih =>
      intro hLnd
      simp only [List.flatMap_cons, List.map_append]
      rw [List.nodup_append]
      refine ⟨?_, ih (List.nodup_cons.mp hLnd).2, ?_⟩
      · exact List.Nodup.sublist
          ((List.filter_sublist roots).map RootedInner.id) hnd
      · intro x hx hx'
        obtain ⟨d, hdfil, rfl⟩ := List.mem_map.mp hx
        obtain ⟨d', hd'mem, hid⟩ := List.mem_map.mp hx'
        obtain ⟨k', hk'rest, hd'fil⟩ := List.mem_flatMap.mp hd'mem
        have hd_roots : d ∈ roots := (List.mem_filter.mp hdfil).1
        have hd'_roots : d' ∈ roots := (List.mem_filter.mp hd'fil).1
        have hdheap : d.heap = ContainingHeap.intermediate k.size :=
          of_decide_eq_true (List.mem_filter.mp hdfil).2
        have hd'heap : d'.heap = ContainingHeap.intermediate k'.size :=
          of_decide_eq_true (List.mem_filter.mp hd'fil).2
        have hdd : d' = d := ids_inj hnd hd'_roots hd_roots hid
        rw [hdd, hdheap] at hd'heap
        have : k.size = k'.size := ContainingHeap.intermediate.inj hd'heap
        rw [pocket_size_inj this] at hLnd
        exact (List.nodup_cons.mp hLnd).1 hk'rest
  exact haux PocketSize.allPockets allPockets_nodup

/-! # Sweep preservation (spec-modelled `sweep(roots)`) -/

theorem sweepRoots_pres (l : List RootedInner) :
    ∀ (fl fl1 : FreeList) (kept : List RootedInner),
    sweepRoots fl l = .ok (fl1, kept) →
    (∀ d ∈ l, ∀ c, d.heap = ContainingHeap.intermediate c →
      c ∈ PocketSize.MEMORY_POCKETS) →
    fl1.start = fl.start ∧ fl1.current = fl.current ∧ fl1.size = fl.size ∧
    kept.Sublist l ∧
    (kept.map descSpan ++ freeSlots fl1).Perm (l.map descSpan ++ freeSlots fl) ∧
    (∀ d ∈ l, (d.rooted = true ∨ d.heap = ContainingHeap.eden) → d ∈ kept) ∧
    (∀ s ∈ freeSlots fl1, s ∈ freeSlots fl ∨
      ∃ d, d ∈ l ∧ (∃ c, d.heap = ContainingHeap.intermediate c) ∧ s = descSpan d) := by
  induction l with
  | nil =>
    intro fl fl1 kept h _
    obtain ⟨h1, h2⟩ := Prod.mk.inj (Except.ok.inj h)
    subst h1
    subst h2
    exact ⟨rfl, rfl, rfl, List.Sublist.refl _, List.Perm.refl _,
      fun d hd => absurd hd (List.not_mem_nil d),
      fun s hs => Or.inl hs⟩
  | cons d rest ih =>
    intro fl fl1 kept h hcls
    unfold sweepRoots at h
    split at h
    · rename_i c hheap hrooted
      split at h
      · exact Except.noConfusion h
      · rename_i fl' hrec
        have hc : c ∈ PocketSize.MEMORY_POCKETS :=
          hcls d (List.mem_cons_self d rest) c hheap
        obtain ⟨k, hk, hrec'⟩ := reclaim_ok d.value fl hc
        rw [hrec'] at hrec
        obtain rfl := Except.ok.inj hrec
        obtain ⟨hs1, hs2, hs3, hsub, hperm, hkeep, hslots⟩ :=
          ih _ fl1 kept h (fun x hx => hcls x (List.mem_cons_of_mem d hx))
        have hspan : descSpan d = (d.value, k.size) := by
          unfold descSpan descExtent
          rw [hheap, hk]
        have hpush := freeSlots_push k d.value fl
        refine ⟨hs1, hs2, hs3, hsub.cons d, ?_, ?_, ?_⟩
        · have hstep : (rest.map descSpan ++ freeSlots
              { fl with pockets := fun q =>
                  if q = k then d.value :: fl.pockets q else fl.pockets q }).Perm
              ((d.value, k.size) :: (rest.map descSpan ++ freeSlots fl)) :=
            (List.Perm.append_left _ hpush).trans List.perm_middle
          refine hperm.trans (hstep.trans ?_)
          rw [← hspan]
          simp only [List.map_cons, List.cons_append]
          exact List.Perm.refl _
        · intro x hx hor
          rcases List.mem_cons.mp hx with rfl | hx'
          · rcases hor with hr | he
            · rw [hrooted] at hr
              exact Bool.noConfusion hr
            · rw [hheap] at he
              exact ContainingHeap.noConfusion he
          · exact hkeep x hx' hor
        · intro s hs
          rcases hslots s hs with hold | ⟨x, hx, hxint, hxspan⟩
          · have := hpush.mem_iff.mp hold
            rcases List.mem_cons.mp this with rfl | hs'
            · exact Or.inr ⟨d, List.mem_cons_self d rest, ⟨c, hheap⟩, hspan.symm⟩
            · exact Or.inl hs'
          · exact Or.inr ⟨x, List.mem_cons_of_mem d hx, hxint, hxspan⟩
    · split at h
      · exact Except.noConfusion h
      · rename_i fl' kept' hrec
        obtain ⟨h1, h2⟩ := Prod.mk.inj (Except.ok.inj h)
        subst h1
        subst h2
        obtain ⟨hs1, hs2, hs3, hsub, hperm, hkeep, hslots⟩ :=
          ih _ _ _ hrec (fun x hx => hcls x (List.mem_cons_of_mem d hx))
        refine ⟨hs1, hs2, hs3, hsub.cons₂ d, ?_, ?_, ?_⟩
        · simp only [List.map_cons, List.cons_append]
          exact hperm.cons (descSpan d)
        · intro x hx hor
          rcases List.mem_cons.mp hx with rfl | hx'
          · exact List.mem_cons_self x kept'
          · exact List.mem_cons_of_mem d (hkeep x hx' hor)
        · intro s hs
          rcases hslots s hs with hold | ⟨x, hx, hxint, hxspan⟩
          · exact Or.inl hold
          · exact Or.inr ⟨x, List.mem_cons_of_mem d hx, hxint, hxspan⟩

/-! # Compaction preservation (spec-modelled `compact(roots)`) -/

theorem compactReloc_fields (fl : FreeList) (roots : List RootedInner)
    (d : RootedInner) :
    (compactReloc fl roots d).id = d.id ∧
    (compactReloc fl roots d).heap = d.heap ∧
    (compactReloc fl roots d).rooted = d.rooted ∧
    (compactReloc fl roots d).size = d.size := by
  unfold compactReloc
  split <;> exact ⟨rfl, rfl, rfl, rfl⟩

theorem compactReloc_eden (fl : FreeList) (roots : List RootedInner)
    (hnd : (roots.map RootedInner.id).Nodup) (d : RootedInner) (hd : d ∈ roots)
    (hheap : d.heap = ContainingHeap.eden) : compactReloc fl roots d = d := by
  unfold compactReloc
  split
  · rename_i da hda
    have hmem := List.mem_of_find?_eq_some hda
    have hp := List.find?_some hda
    have hid : da.1.id = d.id := of_decide_eq_true hp
    have hda1 : da.1 ∈ roots := compactOrder_sub da.1 (layoutAux_mem_fst hmem)
    obtain ⟨k, hk⟩ := compactOrder_int da.1 (layoutAux_mem_fst hmem)
    have : da.1 = d := ids_inj hnd hda1 hd hid
    rw [this, hheap] at hk
    exact ContainingHeap.noConfusion hk
  · rfl

theorem compactReloc_int (fl : FreeList) (roots : List RootedInner)
    (hnd : (roots.map RootedInner.id).Nodup) (d : RootedInner) (hd : d ∈ roots)
    {c : Nat} (hheap : d.heap = ContainingHeap.intermediate c)
    (hc : c ∈ PocketSize.MEMORY_POCKETS) :
    ∃ a : Nat, compactReloc fl roots d = { d with value := a } ∧
      (d, a) ∈ layoutAux fl.start (compactOrder roots) := by
  obtain ⟨k, hk⟩ := (mem_pockets_iff c).mp hc
  have hdco : d ∈ compactOrder roots := compactOrder_mem hd hheap hk
  obtain ⟨a, hfind, hmem⟩ := layoutAux_find
    (fun x hx => (compactOrder_int x hx).elim (fun k' hk' => ⟨k'.size, hk'⟩))
    (compactOrder_nodup hnd) hdco fl.start
  exact ⟨a, by unfold compactReloc; rw [hfind], hmem⟩

theorem compactRoots_fl (fl : FreeList) (roots : List RootedInner) (mem : Mem) :
    (compactRoots fl roots mem).1.start = fl.start ∧
    (compactRoots fl roots mem).1.size = fl.size ∧
    fl.start ≤ (compactRoots fl roots mem).1.current ∧
    freeSlots (compactRoots fl roots mem).1 = [] := by
  refine ⟨rfl, rfl, ?_, ?_⟩
  · exact foldl_max_ge_init _ _ _
  · rfl

theorem compactRoots_roots_eq (fl : FreeList) (roots : List RootedInner) (mem : Mem) :
    (compactRoots fl roots mem).2.1 = roots.map (compactReloc fl roots) := rfl

theorem compactRoots_ids (fl : FreeList) (roots : List RootedInner) (mem : Mem) :
    (compactRoots fl roots mem).2.1.map RootedInner.id = roots.map RootedInner.id := by
  rw [compactRoots_roots_eq, List.map_map]
  exact List.map_congr_left (fun d _ => (compactReloc_fields fl roots d).1)

theorem compactRoots_target_bounds (fl : FreeList) (roots : List RootedInner)
    (mem : Mem) {da : RootedInner × Nat}
    (hmem : da ∈ layoutAux fl.start (compactOrder roots)) :
    fl.start ≤ da.2 ∧ da.2 + descExtent da.1 ≤ (compactRoots fl roots mem).1.current := by
  refine ⟨layoutAux_base_le hmem, ?_⟩
  obtain ⟨k, hk⟩ := compactOrder_int da.1 (layoutAux_mem_fst hmem)
  have hext : descExtent da.1 = k.size := by unfold descExtent; rw [hk]
  have := foldl_max_ge_mem (layoutAux fl.start (compactOrder roots))
    (fun x => x.2 + match x.1.heap with
      | ContainingHeap.intermediate c => c
      | ContainingHeap.eden => 0) fl.start da hmem
  simp only [hk] at this
  rw [hext]
  exact this

theorem compactRoots_mem_low (fl : FreeList) (roots : List RootedInner) (mem : Mem)
    (q n : Nat) (hlow : q + n ≤ fl.start) :
    readBytes (compactRoots fl roots mem).2.2 q n = readBytes mem q n := by
  apply foldl_write_preserve
  intro da hda
  exact Or.inl (le_trans hlow (layoutAux_base_le hda))

theorem compactRoots_mem_self (fl : FreeList) (roots : List RootedInner) (mem : Mem)
    (hok : ∀ d ∈ roots, ∀ c, d.heap = ContainingHeap.intermediate c → d.size ≤ c)
    {da : RootedInner × Nat} (hmem : da ∈ layoutAux fl.start (compactOrder roots)) :
    readBytes (compactRoots fl roots mem).2.2 da.2 da.1.size =
      readBytes mem da.1.value da.1.size := by
  apply foldl_write_self
  apply List.Pairwise.imp_of_mem ?_ (layoutAux_pairwise (compactOrder roots) fl.start)
  intro x y hx hy hxy
  obtain ⟨k, hk⟩ := compactOrder_int x.1 (layoutAux_mem_fst hx)
  have hsz : x.1.size ≤ descExtent x.1 := by
    have := hok x.1 (compactOrder_sub x.1 (layoutAux_mem_fst hx)) k.size hk
    unfold descExtent
    rw [hk]
    exact this
  exact Or.inl (by omega)
  · exact hmem


/-! # Small invariant-transfer helpers -/

theorem slot_mem_freeSlots {fl : FreeList} {k : PocketSize} {v : Nat}
    (h : v ∈ fl.pockets k) : (v, k.size) ∈ freeSlots fl := by
  unfold freeSlots freeSlotsOver
  exact List.mem_flatMap.mpr ⟨k, allPockets_mem k, List.mem_map_of_mem _ h⟩

theorem descOK_mono {st st' : BumpHeap} {d : RootedInner}
    (h1 : st'.young_start = st.young_start)
    (h2 : st.young_current ≤ st'.young_current)
    (h3 : st'.intermediate.free_list.start = st.intermediate.free_list.start)
    (h4 : st.intermediate.free_list.current ≤ st'.intermediate.free_list.current)
    (h : descOK st d) : descOK st' d := by
  unfold descOK edenOK intOK at h ⊢
  split at h
  · exact ⟨h1 ▸ h.1, le_trans h.2 h2⟩
  · exact ⟨h.1, h.2.1, by rw [h3]; exact h.2.2.1, le_trans h.2.2.2 h4⟩

theorem slotOK_mono {fl fl' : FreeList} {s : Nat × Nat}
    (h3 : fl'.start = fl.start) (h4 : fl.current ≤ fl'.current)
    (h : slotOK fl s) : slotOK fl' s :=
  ⟨by rw [h3]; exact h.1, le_trans h.2 h4⟩

theorem find_id_of_nodup {l : List RootedInner}
    (hnd : (l.map RootedInner.id).Nodup) {d : RootedInner} (hd : d ∈ l) :
    l.find? (fun x => x.id = d.id) = some d := by
  induction l with
  | nil => exact absurd hd (List.not_mem_nil d)
  | cons a rest ih =>
    rcases List.mem_cons.mp hd with rfl | hd'
    · rw [List.find?_cons_of_pos _ (by simp)]
    · have hne : a.id ≠ d.id := by
        intro he
        have : d.id ∈ rest.map RootedInner.id := List.mem_map_of_mem _ hd'
        rw [← he] at this
        exact (List.nodup_cons.mp hnd).1 this
      rw [List.find?_cons_of_neg _ (by simp [hne])]
      exact ih (List.nodup_cons.mp hnd).2 hd'

theorem frag_gt_half_iff (fl : FreeList) (hcs : fl.start ≤ fl.current) :
    ((1 : ℚ) / 2 < OldHeap.fragmentation ⟨fl⟩ ↔
      (fl.size = 0 ∨ 2 * (fl.current - fl.start) < fl.size)) := by
  unfold OldHeap.fragmentation
  simp only
  have hd : (fl.current : ℚ) - (fl.start : ℚ) = ((fl.current - fl.start : Nat) : ℚ) := by
    rw [Nat.cast_sub hcs]
  rw [hd]
  rcases Nat.eq_zero_or_pos fl.size with hz | hpos
  · rw [hz]
    norm_num
  · have hS : (0 : ℚ) < (fl.size : ℚ) := by exact_mod_cast hpos
    constructor
    · intro h
      refine Or.inr ?_
      have h1 : ((fl.current - fl.start : Nat) : ℚ) / (fl.size : ℚ) < 1 / 2 := by
        linarith
      have h2 : ((fl.current - fl.start : Nat) : ℚ) < 1 / 2 * (fl.size : ℚ) :=
        (div_lt_iff hS).mp h1
      have h3 : ((2 * (fl.current - fl.start) : Nat) : ℚ) < (fl.size : ℚ) := by
        push_cast
        linarith
      exact_mod_cast h3
    · intro h
      rcases h with hz' | h2
      · omega
      · have h3 : ((2 * (fl.current - fl.start) : Nat) : ℚ) < (fl.size : ℚ) := by
          exact_mod_cast h2
        have h4 : ((fl.current - fl.start : Nat) : ℚ) / (fl.size : ℚ) < 1 / 2 := by
          rw [div_lt_iff hS]
          push_cast at h3 ⊢
          linarith
        linarith

theorem compactOrder_nil_of_no_int {roots : List RootedInner}
    (h : ∀ d ∈ roots, ∀ c, d.heap ≠ ContainingHeap.intermediate c) :
    compactOrder roots = [] := by
  unfold compactOrder
  refine List.flatMap_eq_nil_iff.mpr ?_
  intro k hk
  refine List.filter_eq_nil_iff.mpr ?_
  intro d hd
  simp only [decide_eq_true_eq]
  exact h d hd k.size

theorem compactRoots_current_no_int (fl : FreeList) (roots : List RootedInner)
    (mem : Mem)
    (h : ∀ d ∈ roots, ∀ c, d.heap ≠ ContainingHeap.intermediate c) :
    (compactRoots fl roots mem).1.current = fl.start := by
  unfold compactRoots
  simp only [compactOrder_nil_of_no_int h]
  rfl

/-! # Sweep preserves the heap invariant -/

theorem sweep_midinv {st : BumpHeap} {EXT : List RootedInner} (hinv : MidInv st EXT)
    {fl1 : FreeList} {roots1 : List RootedInner}
    (hsw : sweepRoots st.intermediate.free_list st.roots = .ok (fl1, roots1)) :
    MidInv { st with intermediate := ⟨fl1⟩, roots := roots1 } EXT ∧
    (∀ id bytes, TrackedWith st EXT id bytes →
      TrackedWith { st with intermediate := ⟨fl1⟩, roots := roots1 } EXT id bytes) ∧
    roots1.Sublist st.roots := by
  have hcls : ∀ d ∈ st.roots, ∀ c, d.heap = ContainingHeap.intermediate c →
      c ∈ PocketSize.MEMORY_POCKETS := by
    intro d hd c hc
    have hok := hinv.descs_ok d (List.mem_append_left EXT hd)
    unfold descOK at hok
    rw [hc] at hok
    exact hok.1
  obtain ⟨hs1, hs2, hs3, hsub, hperm, hkeep, hslots⟩ :=
    sweepRoots_pres st.roots st.intermediate.free_list fl1 roots1 hsw hcls
  have hsubfull : (roots1 ++ EXT).Sublist (st.roots ++ EXT) :=
    hsub.append_right EXT
  have hdisj' : ((roots1 ++ EXT).map descSpan ++ freeSlots fl1).Pairwise DisjP := by
    apply pairwise_perm_disj _ hinv.disj
    rw [List.map_append, List.map_append, List.append_assoc, List.append_assoc]
    refine ((List.Perm.append_left _ List.perm_append_comm).trans ?_).trans
      (List.Perm.append_left _ List.perm_append_comm)
    rw [← List.append_assoc, ← List.append_assoc]
    exact List.Perm.append_right _ hperm.symm
  refine ⟨⟨hinv.young_lo, hinv.young_hi, ?_, ?_, ?_, ?_, ?_, ?_, ?_, ?_, hdisj'⟩, ?_, hsub⟩
  · show st.young_end < fl1.start
    rw [hs1]
    exact hinv.old_pos
  · show fl1.start ≤ fl1.current
    rw [hs1, hs2]
    exact hinv.cur_ge
  · intro hz
    rw [hs1, hs2]
    exact hinv.size_zero (by rw [← hs3]; exact hz)
  · exact hinv.ids_nodup.sublist (hsubfull.map RootedInner.id)
  · intro d hd
    exact hinv.ids_lt d (hsubfull.mem hd)
  · exact segregated_sublist hsub hinv.seg_roots
  · intro d hd
    refine descOK_mono ?_ ?_ ?_ ?_ (hinv.descs_ok d (hsubfull.mem hd))
    · rfl
    · exact le_refl _
    · exact hs1
    · exact le_of_eq hs2.symm
  · intro s hs
    rcases hslots s hs with hold | ⟨d, hd, ⟨c, hc⟩, hspan⟩
    · exact slotOK_mono hs1 (le_of_eq hs2.symm) (hinv.slots_ok s hold)
    · have hok := hinv.descs_ok d (List.mem_append_left EXT hd)
      unfold descOK at hok
      rw [hc] at hok
      have hext : descExtent d = c := by unfold descExtent; rw [hc]
      constructor
      · rw [hs1, hspan]
        unfold descSpan
        exact hok.2.2.1
      · rw [hs2, hspan]
        unfold descSpan
        rw [hext]
        exact hok.2.2.2
  · intro id bytes ⟨d, hdmem, hid, hrooted, hsize, hbytes⟩
    refine ⟨d, ?_, hid, hrooted, hsize, hbytes⟩
    rcases hdmem with hd | hd
    · exact Or.inl (hkeep d hd (Or.inl hrooted))
    · exact Or.inr hd

/-! # Compaction preserves the heap invariant -/

theorem layout_forall_disj {l : List RootedInner} {base : Nat}
    {x y : RootedInner × Nat}
    (hx : x ∈ layoutAux base l) (hy : y ∈ layoutAux base l) (hne : x ≠ y) :
    DisjP (x.2, descExtent x.1) (y.2, descExtent y.1) := by
  have hpw : (layoutAux base l).Pairwise
      (fun a b => DisjP (a.2, descExtent a.1) (b.2, descExtent b.1)) :=
    (layoutAux_pairwise l base).imp (fun {a b} h => Or.inl h)
  exact List.Pairwise.forall (fun {a b} hab => DisjP_symm hab) hpw hx hy hne

theorem compact_midinv {st : BumpHeap} {EXT : List RootedInner} (hinv : MidInv st EXT)
    (heden : ∀ d ∈ EXT, d.heap = ContainingHeap.eden)
    {fl' : FreeList} {roots' : List RootedInner} {mem' : Mem}
    (hc : compactRoots st.intermediate.free_list st.roots st.mem =
      (fl', roots', mem')) :
    MidInv { st with intermediate := ⟨fl'⟩, roots := roots', mem := mem' } EXT ∧
    (∀ id bytes, TrackedWith st EXT id bytes →
      TrackedWith { st with intermediate := ⟨fl'⟩, roots := roots', mem := mem' }
        EXT id bytes) := by
  have hfl : (compactRoots st.intermediate.free_list st.roots st.mem).1 = fl' := by
    rw [hc]
  have hrts : (compactRoots st.intermediate.free_list st.roots st.mem).2.1 = roots' := by
    rw [hc]
  have hmm : (compactRoots st.intermediate.free_list st.roots st.mem).2.2 = mem' := by
    rw [hc]
  obtain ⟨hstart, hsize, hcur, hslots⟩ :=
    compactRoots_fl st.intermediate.free_list st.roots st.mem
  rw [hfl] at hstart hsize hcur hslots
  have hroots' : roots' =
      st.roots.map (compactReloc st.intermediate.free_list st.roots) := by
    rw [← hrts]
    exact compactRoots_roots_eq _ _ _
  have hndR : (st.roots.map RootedInner.id).Nodup := by
    have := hinv.ids_nodup
    rw [List.map_append] at this
    exact (List.nodup_append.mp this).1
  have hidsdisj : ∀ d ∈ st.roots, ∀ e ∈ EXT, d.id ≠ e.id := by
    have := hinv.ids_nodup
    rw [List.map_append] at this
    have hdj := (List.nodup_append.mp this).2.2
    intro d hd e he hde
    exact hdj (List.mem_map_of_mem _ hd) (hde ▸ List.mem_map_of_mem _ he)
  have hintOK : ∀ d ∈ st.roots, ∀ c, d.heap = ContainingHeap.intermediate c →
      intOK st.intermediate.free_list d c := by
    intro d hd c hcd
    have := hinv.descs_ok d (List.mem_append_left EXT hd)
    unfold descOK at this
    rw [hcd] at this
    exact this
  have hedOK : ∀ d ∈ st.roots ++ EXT, d.heap = ContainingHeap.eden →
      d.value + d.size ≤ st.intermediate.free_list.start := by
    intro d hd hcd
    have := hinv.descs_ok d hd
    unfold descOK at this
    rw [hcd] at this
    have h1 := this.2
    have h2 := hinv.young_hi
    have h3 := hinv.old_pos
    omega
  have hsizele : ∀ d ∈ st.roots, ∀ c, d.heap = ContainingHeap.intermediate c →
      d.size ≤ c := fun d hd c hcd => (hintOK d hd c hcd).2.1
  have hrelocInt : ∀ d ∈ st.roots, ∀ c, d.heap = ContainingHeap.intermediate c →
      ∃ a : Nat, compactReloc st.intermediate.free_list st.roots d =
        { d with value := a } ∧
        (d, a) ∈ layoutAux st.intermediate.free_list.start (compactOrder st.roots) ∧
        fl'.start ≤ a ∧ a + c ≤ fl'.current := by
    intro d hd c hcd
    obtain ⟨a, hrel, hmem⟩ := compactReloc_int st.intermediate.free_list st.roots
      hndR d hd hcd (hintOK d hd c hcd).1
    obtain ⟨hb1, hb2⟩ := compactRoots_target_bounds st.intermediate.free_list st.roots
      st.mem hmem
    have hext : descExtent d = c := by unfold descExtent; rw [hcd]
    rw [hfl] at hb2
    refine ⟨a, hrel, hmem, ?_, ?_⟩
    · rw [hstart]
      exact hb1
    · rw [hext] at hb2
      exact hb2
  have hspanInt : ∀ (d : RootedInner) (a c : Nat),
      d.heap = ContainingHeap.intermediate c →
      descSpan { d with value := a } = (a, c) := by
    intro d a c hcd
    unfold descSpan descExtent
    simp only [hcd]
  have hpwR : (st.roots.map descSpan).Pairwise DisjP := by
    refine List.Pairwise.sublist ?_ hinv.disj
    refine List.Sublist.trans ?_ (List.sublist_append_left _ _)
    rw [List.map_append]
    exact List.sublist_append_left _ _
  have hpwE : (EXT.map descSpan).Pairwise DisjP := by
    refine List.Pairwise.sublist ?_ hinv.disj
    refine List.Sublist.trans ?_ (List.sublist_append_left _ _)
    rw [List.map_append]
    exact List.sublist_append_right _ _
  have hcross : ∀ d ∈ st.roots, ∀ e ∈ EXT,
      DisjP (descSpan (compactReloc st.intermediate.free_list st.roots d))
        (descSpan e) := by
    intro d hd e he
    have hee := heden e he
    have het : descSpan e = (e.value, e.size) := by
      unfold descSpan descExtent
      simp only [hee]
    have hbound := hedOK e (List.mem_append_right _ he) hee
    cases hdh : d.heap with
    | eden =>
      rw [compactReloc_eden _ _ hndR d hd hdh]
      have hpwfull : ((st.roots ++ EXT).map descSpan).Pairwise DisjP := by
        refine List.Pairwise.sublist ?_ hinv.disj
        exact List.sublist_append_left _ _
      exact pairwise_spans_forall hinv.ids_nodup hpwfull d
        (List.mem_append_left EXT hd) e (List.mem_append_right _ he)
        (hidsdisj d hd e he)
    | intermediate c =>
      obtain ⟨a, hrel, -, ha1, -⟩ := hrelocInt d hd c hdh
      rw [hrel, hspanInt d a c hdh, het]
      refine Or.inr ?_
      show e.value + e.size ≤ a
      omega
  have hpwR' : (roots'.map descSpan).Pairwise DisjP := by
    rw [hroots', List.map_map]
    refine List.pairwise_map.mpr ?_
    have h_ne : st.roots.Pairwise (fun a b => a.id ≠ b.id) :=
      List.pairwise_map.mp hndR
    have h_dis : st.roots.Pairwise (fun a b => DisjP (descSpan a) (descSpan b)) :=
      List.pairwise_map.mp hpwR
    refine List.Pairwise.imp_of_mem ?_ (List.Pairwise.and h_ne h_dis)
    intro d e hd he hde
    obtain ⟨hne, hdisj⟩ := hde
    show DisjP (descSpan (compactReloc st.intermediate.free_list st.roots d))
      (descSpan (compactReloc st.intermediate.free_list st.roots e))
    cases hdh : d.heap with
    | eden =>
      rw [compactReloc_eden _ _ hndR d hd hdh]
      cases heh : e.heap with
      | eden =>
        rw [compactReloc_eden _ _ hndR e he heh]
        exact hdisj
      | intermediate c' =>
        obtain ⟨a', hrel', -, ha1', -⟩ := hrelocInt e he c' heh
        rw [hrel', hspanInt e a' c' heh]
        refine Or.inl ?_
        show d.value + descExtent d ≤ a'
        have hextd : descExtent d = d.size := by unfold descExtent; rw [hdh]
        have hb := hedOK d (List.mem_append_left EXT hd) hdh
        rw [hextd]
        omega
    | intermediate c =>
      obtain ⟨a, hrel, hmem, ha1, -⟩ := hrelocInt d hd c hdh
      cases heh : e.heap with
      | eden =>
        rw [compactReloc_eden _ _ hndR e he heh, hrel, hspanInt d a c hdh]
        refine Or.inr ?_
        show e.value + descExtent e ≤ a
        have hexte : descExtent e = e.size := by unfold descExtent; rw [heh]
        have hb := hedOK e (List.mem_append_left EXT he) heh
        rw [hexte]
        omega
      | intermediate c' =>
        obtain ⟨a', hrel', hmem', -, -⟩ := hrelocInt e he c' heh
        rw [hrel, hrel', hspanInt d a c hdh, hspanInt e a' c' heh]
        have hxy : ((d, a) : RootedInner × Nat) ≠ (e, a') := by
          intro hpe
          exact hne (congrArg RootedInner.id (congrArg Prod.fst hpe))
        have hld := layout_forall_disj hmem hmem' hxy
        have hextd : descExtent d = c := by unfold descExtent; rw [hdh]
        have hexte : descExtent e = c' := by unfold descExtent; rw [heh]
        rw [hextd, hexte] at hld
        exact hld
  have hdisj' : ((roots' ++ EXT).map descSpan ++ freeSlots fl').Pairwise DisjP := by
    rw [hslots, List.append_nil, List.map_append]
    refine (List.pairwise_append).mpr ⟨hpwR', hpwE, ?_⟩
    intro s hs t ht
    obtain ⟨d', hd', rfl⟩ := List.mem_map.mp hs
    obtain ⟨e, he, rfl⟩ := List.mem_map.mp ht
    rw [hroots'] at hd'
    obtain ⟨d0, hd0, rfl⟩ := List.mem_map.mp hd'
    exact hcross d0 hd0 e he
  refine ⟨⟨hinv.young_lo, hinv.young_hi, ?_, ?_, ?_, ?_, ?_, ?_, ?_, ?_, hdisj'⟩, ?_⟩
  · show st.young_end < fl'.start
    rw [hstart]
    exact hinv.old_pos
  · show fl'.start ≤ fl'.current
    rw [hstart]
    exact hcur
  · intro hz
    have hz0 : st.intermediate.free_list.size = 0 := by
      rw [← hsize]
      exact hz
    have hcz := hinv.size_zero hz0
    have hnoint : ∀ d ∈ st.roots, ∀ c, d.heap ≠ ContainingHeap.intermediate c := by
      intro d hd c hcd
      have hio := hintOK d hd c hcd
      have hc1 : 1 ≤ c := by
        obtain ⟨k, hk⟩ := (mem_pockets_iff c).mp hio.1
        rw [← hk]
        exact pocket_size_pos k
      have h2 := hio.2.2.1
      have h3 := hio.2.2.2
      omega
    have hcn := compactRoots_current_no_int st.intermediate.free_list st.roots
      st.mem hnoint
    rw [hfl] at hcn
    show fl'.current = fl'.start
    rw [hcn, hstart]
  · show ((roots' ++ EXT).map RootedInner.id).Nodup
    have hids : roots'.map RootedInner.id = st.roots.map RootedInner.id := by
      rw [← hrts]
      exact compactRoots_ids _ _ _
    rw [List.map_append, hids, ← List.map_append]
    exact hinv.ids_nodup
  · intro d hd
    rcases List.mem_append.mp hd with hd' | hd'
    · rw [hroots'] at hd'
      obtain ⟨d0, hd0, rfl⟩ := List.mem_map.mp hd'
      show (compactReloc st.intermediate.free_list st.roots d0).id < st.next_id
      rw [(compactReloc_fields _ _ d0).1]
      exact hinv.ids_lt d0 (List.mem_append_left EXT hd0)
    · exact hinv.ids_lt d (List.mem_append_right _ hd')
  · show Segregated roots'
    rw [hroots']
    exact segregated_map _ (fun d => (compactReloc_fields _ _ d).2.1) hinv.seg_roots
  · intro d hd
    rcases List.mem_append.mp hd with hd' | hd'
    · rw [hroots'] at hd'
      obtain ⟨d0, hd0, rfl⟩ := List.mem_map.mp hd'
      cases hdh : d0.heap with
      | eden =>
        rw [compactReloc_eden _ _ hndR d0 hd0 hdh]
        have hok := hinv.descs_ok d0 (List.mem_append_left EXT hd0)
        unfold descOK at hok ⊢
        rw [hdh] at hok
        simp only [hdh]
        exact hok
      | intermediate c =>
        obtain ⟨a, hrel, -, ha1, ha2⟩ := hrelocInt d0 hd0 c hdh
        rw [hrel]
        unfold descOK
        simp only [hdh]
        exact ⟨(hintOK d0 hd0 c hdh).1, (hintOK d0 hd0 c hdh).2.1, ha1, ha2⟩
    · have hee := heden d hd'
      have hok := hinv.descs_ok d (List.mem_append_right _ hd')
      unfold descOK at hok ⊢
      rw [hee] at hok
      simp only [hee]
      exact hok
  · intro s hs
    rw [hslots] at hs
    exact absurd hs (List.not_mem_nil s)
  · intro id bytes hT
    obtain ⟨d, hdmem, hid, hrooted, hsizeb, hbytes⟩ := hT
    have hlow : ∀ q n, q + n ≤ st.intermediate.free_list.start →
        readBytes mem' q n = readBytes st.mem q n := by
      intro q n hqn
      rw [← hmm]
      exact compactRoots_mem_low _ _ _ q n hqn
    rcases hdmem with hd | hd
    · cases hdh : d.heap with
      | eden =>
        refine ⟨d, Or.inl ?_, hid, hrooted, hsizeb, ?_⟩
        · show d ∈ roots'
          rw [hroots', ← compactReloc_eden st.intermediate.free_list st.roots
            hndR d hd hdh]
          exact List.mem_map_of_mem _ hd
        · show readBytes mem' d.value d.size = bytes
          rw [hlow d.value d.size (hedOK d (List.mem_append_left EXT hd) hdh)]
          exact hbytes
      | intermediate c =>
        obtain ⟨a, hrel, hmem2, -, -⟩ := hrelocInt d hd c hdh
        refine ⟨{ d with value := a }, Or.inl ?_, hid, hrooted, hsizeb, ?_⟩
        · show { d with value := a } ∈ roots'
          rw [hroots', ← hrel]
          exact List.mem_map_of_mem _ hd
        · show readBytes mem' a d.size = bytes
          have hself := compactRoots_mem_self st.intermediate.free_list st.roots
            st.mem hsizele hmem2
          rw [hmm] at hself
          rw [hself]
          exact hbytes
    · refine ⟨d, Or.inr hd, hid, hrooted, hsizeb, ?_⟩
      show readBytes mem' d.value d.size = bytes
      rw [hlow d.value d.size (hedOK d (List.mem_append_right _ hd) (heden d hd))]
      exact hbytes

/-! # The major cycle preserves the heap invariant -/

theorem sweepRoots_fields (l : List RootedInner) :
    ∀ fl fl1 kept, sweepRoots fl l = .ok (fl1, kept) →
    fl1.start = fl.start ∧ fl1.current = fl.current ∧ fl1.size = fl.size := by
  induction l with
  | nil =>
    intro fl fl1 kept h
    obtain ⟨h1, -⟩ := Prod.mk.inj (Except.ok.inj h)
    subst h1
    exact ⟨rfl, rfl, rfl⟩
  | cons d rest ih =>
    intro fl fl1 kept h
    unfold sweepRoots at h
    split at h
    · split at h
      · exact Except.noConfusion h
      · rename_i c hheap hrooted fl0 hrec
        have hfl0 : fl0.start = fl.start ∧ fl0.current = fl.current ∧
            fl0.size = fl.size := by
          unfold PocketSize.reclaim at hrec
          split at hrec
          · exact Except.noConfusion hrec
          · obtain rfl := Except.ok.inj hrec
            exact ⟨rfl, rfl, rfl⟩
        obtain ⟨h1, h2, h3⟩ := ih _ _ _ h
        exact ⟨h1.trans hfl0.1, h2.trans hfl0.2.1, h3.trans hfl0.2.2⟩
    · split at h
      · exact Except.noConfusion h
      · rename_i fl1' kept' hrec
        obtain ⟨h1, -⟩ := Prod.mk.inj (Except.ok.inj h)
        subst h1
        exact ih _ _ _ hrec

theorem major_pres {st : BumpHeap} {EXT : List RootedInner} (hinv : MidInv st EXT)
    (hsafe : ∀ fl1 roots1,
      sweepRoots st.intermediate.free_list st.roots = .ok (fl1, roots1) →
      (1 / 2 : ℚ) < OldHeap.fragmentation ⟨fl1⟩ →
      ∀ d ∈ EXT, d.heap = ContainingHeap.eden)
    {st' : BumpHeap} (hmaj : st.major = .ok st') :
    MidInv st' EXT ∧
    st'.intermediate.free_list.start = st.intermediate.free_list.start ∧
    st'.intermediate.free_list.size = st.intermediate.free_list.size ∧
    (∀ id bytes, TrackedWith st EXT id bytes → TrackedWith st' EXT id bytes) := by
  unfold BumpHeap.major at hmaj
  split at hmaj
  · exact Except.noConfusion hmaj
  · rename_i oh roots' mem' hcol
    obtain rfl := Except.ok.inj hmaj
    unfold OldHeap.collect at hcol
    split at hcol
    · exact Except.noConfusion hcol
    · rename_i fl1 roots1 hsw
      obtain ⟨hfs1, hfs2, hfs3⟩ := sweepRoots_fields st.roots _ _ _ hsw
      obtain ⟨hS, hTs, hsubS⟩ := sweep_midinv hinv hsw
      split at hcol
      · rename_i hfrag
        split at hcol
        rename_i fl2 roots2 mem2 hcomp
        have hinj := Except.ok.inj hcol
        obtain ⟨ho, hrest⟩ := Prod.mk.inj hinj
        obtain ⟨hr, hm⟩ := Prod.mk.inj hrest
        subst ho
        subst hr
        subst hm
        have heden : ∀ d ∈ EXT, d.heap = ContainingHeap.eden :=
          hsafe fl1 roots1 hsw hfrag
        obtain ⟨hC, hTc⟩ := compact_midinv hS heden hcomp
        have hc2 : fl2.start = fl1.start ∧ fl2.size = fl1.size := by
          have h1 := (compactRoots_fl fl1 roots1 st.mem).1
          have h2 := (compactRoots_fl fl1 roots1 st.mem).2.1
          rw [hcomp] at h1 h2
          exact ⟨h1, h2⟩
        refine ⟨hC, ?_, ?_, ?_⟩
        · show fl2.start = st.intermediate.free_list.start
          rw [hc2.1, hfs1]
        · show fl2.size = st.intermediate.free_list.size
          rw [hc2.2, hfs3]
        · intro id bytes hT
          exact hTc id bytes (hTs id bytes hT)
      · have hinj := Except.ok.inj hcol
        obtain ⟨ho, hrest⟩ := Prod.mk.inj hinj
        obtain ⟨hr, hm⟩ := Prod.mk.inj hrest
        subst ho
        subst hr
        subst hm
        exact ⟨hS, hfs1, hfs3, hTs⟩

/-! # Promotion steps preserve the loop invariant -/

theorem size_le_extent {st : BumpHeap} {d : RootedInner} (h : descOK st d) :
    d.size ≤ descExtent d := by
  unfold descOK at h
  unfold descExtent
  split at h
  · exact le_refl _
  · exact h.2.1

theorem pairwise_promote_carve {A Bm S : List (Nat × Nat)} {p v : Nat × Nat}
    (hold : ((A ++ p :: Bm) ++ S).Pairwise DisjP)
    (hv : ∀ s ∈ (A ++ Bm) ++ S, DisjP v s) :
    ((A ++ v :: Bm) ++ S).Pairwise DisjP := by
  have hsub : ((A ++ Bm) ++ S).Pairwise DisjP :=
    List.Pairwise.sublist
      (((List.sublist_cons_self p Bm).append_left A).append_right S) hold
  have hcons : (v :: ((A ++ Bm) ++ S)).Pairwise DisjP :=
    List.pairwise_cons.mpr ⟨hv, hsub⟩
  exact pairwise_perm_disj ((List.Perm.append_right S List.perm_middle).symm) hcons

theorem pairwise_promote_pop {A Bm S S2 : List (Nat × Nat)} {p v : Nat × Nat}
    (hold : ((A ++ p :: Bm) ++ S).Pairwise DisjP)
    (hpop : S.Perm (v :: S2)) :
    ((A ++ v :: Bm) ++ S2).Pairwise DisjP := by
  have h1 : ((A ++ p :: Bm) ++ S).Perm (p :: ((A ++ Bm) ++ S)) :=
    List.Perm.append_right S List.perm_middle
  have h2 : ((A ++ Bm) ++ S).Pairwise DisjP :=
    (List.pairwise_cons.mp (pairwise_perm_disj h1 hold)).2
  have h3 : ((A ++ Bm) ++ S).Perm (v :: ((A ++ Bm) ++ S2)) :=
    (List.Perm.append_left _ hpop).trans List.perm_middle
  have h4 := pairwise_perm_disj h3 h2
  exact pairwise_perm_disj ((List.Perm.append_right S2 List.perm_middle).symm) h4

theorem finish_step {st : BumpHeap} {r : RootedInner} {R : List RootedInner}
    (hinv : MidInv st (r :: R))
    (hgood : ∀ d ∈ st.roots, d.rooted = true ∧
      ∃ c, d.heap = ContainingHeap.intermediate c)
    (hr : r.rooted = true)
    {ptr psize : Nat} {oh : OldHeap}
    (halloc : st.intermediate.alloc r.size = .ok (some ((ptr, psize), oh))) :
    MidInv (st.finishPromote oh r ptr psize) R ∧
    (∀ d ∈ (st.finishPromote oh r ptr psize).roots, d.rooted = true ∧
      ∃ c, d.heap = ContainingHeap.intermediate c) ∧
    (∀ id bytes, TrackedWith st (r :: R) id bytes →
      TrackedWith (st.finishPromote oh r ptr psize) R id bytes) := by
  obtain ⟨k, hk, hpsize, hcase⟩ := fl_alloc_some (oh_alloc_some halloc)
  subst hpsize
  have hrsize := (next_up_some_ge hk).2
  have hbound : ∀ d ∈ st.roots ++ r :: R,
      (descSpan d).1 + (descSpan d).2 ≤ st.intermediate.free_list.current := by
    intro d hd
    have hok := hinv.descs_ok d hd
    unfold descOK at hok
    unfold descSpan descExtent
    split at hok
    · show d.value + d.size ≤ st.intermediate.free_list.current
      have h2 := hinv.young_hi
      have h3 := hinv.old_pos
      have h4 := hinv.cur_ge
      have h5 := hok.2
      omega
    · rename_i c hh
      show d.value + c ≤ st.intermediate.free_list.current
      exact hok.2.2.2
  have key : oh.free_list.start = st.intermediate.free_list.start ∧
      oh.free_list.size = st.intermediate.free_list.size ∧
      st.intermediate.free_list.current ≤ oh.free_list.current ∧
      st.intermediate.free_list.start ≤ ptr ∧
      ptr + k.size ≤ oh.free_list.current ∧
      (st.intermediate.free_list.size = 0 → False) ∧
      (∀ s ∈ freeSlots oh.free_list, s ∈ freeSlots st.intermediate.free_list) ∧
      (∀ d ∈ st.roots ++ r :: R, DisjP (descSpan d) (ptr, k.size)) ∧
      (((st.roots ++
          [{ r with heap := ContainingHeap.intermediate k.size, value := ptr }]) ++
          R).map descSpan ++ freeSlots oh.free_list).Pairwise DisjP := by
    have hdisj := hinv.disj
    rw [List.map_append] at hdisj
    rcases hcase with ⟨hc, hptr, hfl2⟩ | ⟨hc, rest, hpk, hfl2⟩
    · subst hptr
      have hsep : ∀ d ∈ st.roots ++ r :: R,
          DisjP (descSpan d) (st.intermediate.free_list.current, k.size) :=
        fun d hd => Or.inl (hbound d hd)
      refine ⟨by rw [hfl2], by rw [hfl2], ?_, ?_, ?_, ?_, ?_, hsep, ?_⟩
      · rw [hfl2]
        exact Nat.le_add_right _ _
      · exact hinv.cur_ge
      · rw [hfl2]
      · intro hz
        have h4 := hinv.cur_ge
        omega
      · intro s hs
        rw [hfl2] at hs
        exact hs
      · rw [List.append_assoc, List.map_append, hfl2]
        show ((st.roots.map descSpan ++
          ((st.intermediate.free_list.current, k.size) :: R.map descSpan)) ++
          freeSlots st.intermediate.free_list).Pairwise DisjP
        refine pairwise_promote_carve hdisj ?_
        intro s hs
        rcases List.mem_append.mp hs with hs' | hs'
        · rcases List.mem_append.mp hs' with hs'' | hs''
          · obtain ⟨d, hd, rfl⟩ := List.mem_map.mp hs''
            exact DisjP_symm (hsep d (List.mem_append_left _ hd))
          · obtain ⟨d, hd, rfl⟩ := List.mem_map.mp hs''
            exact DisjP_symm (hsep d
              (List.mem_append_right _ (List.mem_cons_of_mem r hd)))
        · exact Or.inr (hinv.slots_ok s hs').2
    · have hslotmem : (ptr, k.size) ∈ freeSlots st.intermediate.free_list :=
        slot_mem_freeSlots (by rw [hpk]; exact List.mem_cons_self _ _)
      have hslotOK := hinv.slots_ok _ hslotmem
      have hpop := freeSlots_pop k ptr rest st.intermediate.free_list hpk
      have hcrossOld := (List.pairwise_append.mp hinv.disj).2.2
      refine ⟨by rw [hfl2], by rw [hfl2], ?_, hslotOK.1, ?_, ?_, ?_, ?_, ?_⟩
      · rw [hfl2]
      · rw [hfl2]
        exact hslotOK.2
      · intro hz
        have hc0 := hinv.size_zero hz
        have h1 := hslotOK.1
        have h2 := hslotOK.2
        have h3 := pocket_size_pos k
        omega
      · intro s hs
        rw [hfl2] at hs
        exact hpop.mem_iff.mpr (List.mem_cons_of_mem _ hs)
      · intro d hd
        exact hcrossOld (descSpan d) (List.mem_map_of_mem _ hd) (ptr, k.size)
          hslotmem
      · rw [List.append_assoc, List.map_append]
        show ((st.roots.map descSpan ++ ((ptr, k.size) :: R.map descSpan)) ++
          freeSlots oh.free_list).Pairwise DisjP
        refine pairwise_promote_pop hdisj ?_
        rw [hfl2]
        exact hpop
  obtain ⟨hA1, hA2, hA3, hA4, hA5, hSZ, hS2mem, hsep, hpw⟩ := key
  have hmemnew : ∀ s ∈ freeSlots oh.free_list, slotOK oh.free_list s := by
    intro s hs
    exact slotOK_mono hA1 hA3 (hinv.slots_ok s (hS2mem s hs))
  have hids : ((st.roots ++
      [{ r with heap := ContainingHeap.intermediate k.size, value := ptr }]) ++
      R).map RootedInner.id = ((st.roots ++ r :: R).map RootedInner.id) := by
    rw [List.append_assoc, List.map_append, List.map_append, List.map_append]
    rfl
  refine ⟨⟨hinv.young_lo, hinv.young_hi, ?_, ?_, ?_, ?_, ?_, ?_, ?_, hmemnew, hpw⟩,
    ?_, ?_⟩
  · show st.young_end < oh.free_list.start
    rw [hA1]
    exact hinv.old_pos
  · show oh.free_list.start ≤ oh.free_list.current
    rw [hA1]
    exact le_trans hinv.cur_ge hA3
  · intro hz
    have hz' : oh.free_list.size = 0 := hz
    rw [hA2] at hz'
    exact absurd hz' hSZ
  · show (((st.roots ++ [_]) ++ R).map RootedInner.id).Nodup
    rw [hids]
    exact hinv.ids_nodup
  · intro d hd
    have hd0 : d ∈ st.roots ++
        ({ r with heap := ContainingHeap.intermediate k.size, value := ptr } :: R) := by
      have hx : d ∈ (st.roots ++
          [{ r with heap := ContainingHeap.intermediate k.size, value := ptr }]) ++ R := hd
      rw [List.append_assoc] at hx
      exact hx
    rcases List.mem_append.mp hd0 with hd' | hd'
    · exact hinv.ids_lt d (List.mem_append_left _ hd')
    · rcases List.mem_cons.mp hd' with rfl | hd''
      · exact hinv.ids_lt r
          (List.mem_append_right _ (List.mem_cons_self r R))
      · exact hinv.ids_lt d
          (List.mem_append_right _ (List.mem_cons_of_mem r hd''))
  · refine segregated_of_all_int ?_
    intro d hd
    rcases List.mem_append.mp hd with hd' | hd'
    · exact (hgood d hd').2
    · rw [List.mem_singleton.mp hd']
      exact ⟨k.size, rfl⟩
  · intro d hd
    have hd0 : d ∈ st.roots ++
        ({ r with heap := ContainingHeap.intermediate k.size, value := ptr } :: R) := by
      have hx : d ∈ (st.roots ++
          [{ r with heap := ContainingHeap.intermediate k.size, value := ptr }]) ++ R := hd
      rw [List.append_assoc] at hx
      exact hx
    rcases List.mem_append.mp hd0 with hd' | hd'
    · refine descOK_mono ?_ ?_ ?_ ?_
        (hinv.descs_ok d (List.mem_append_left _ hd'))
      · rfl
      · exact le_refl _
      · exact hA1
      · exact hA3
    · rcases List.mem_cons.mp hd' with rfl | hd''
      · unfold descOK
        simp only
        refine ⟨size_mem_pockets k, hrsize, ?_, hA5⟩
        show oh.free_list.start ≤ ptr
        rw [hA1]
        exact hA4
      · refine descOK_mono ?_ ?_ ?_ ?_
          (hinv.descs_ok d
            (List.mem_append_right _ (List.mem_cons_of_mem r hd'')))
        · rfl
        · exact le_refl _
        · exact hA1
        · exact hA3
  · intro d hd
    rcases List.mem_append.mp hd with hd' | hd'
    · exact hgood d hd'
    · rw [List.mem_singleton.mp hd']
      exact ⟨hr, k.size, rfl⟩
  · intro id bytes hT
    obtain ⟨d, hdmem, hid, hroot, hsz, hbytes⟩ := hT
    have hwb : ∀ d0 ∈ st.roots ++ r :: R,
        readBytes (writeBytes st.mem ptr (readBytes st.mem r.value r.size))
          d0.value d0.size = readBytes st.mem d0.value d0.size := by
      intro d0 hd0
      apply readBytes_writeBytes_disj
      rw [readBytes_length]
      refine DisjP_mono (hsep d0 hd0) (le_refl _) ?_ (le_refl _) ?_
      · unfold descSpan
        simp only
        have := size_le_extent (hinv.descs_ok d0 hd0)
        omega
      · simp only
        omega
    rcases hdmem with hd | hd
    · refine ⟨d, Or.inl ?_, hid, hroot, hsz, ?_⟩
      · exact List.mem_append_left _ hd
      · show readBytes (writeBytes st.mem ptr (readBytes st.mem r.value r.size))
          d.value d.size = bytes
        rw [hwb d (List.mem_append_left _ hd)]
        exact hbytes
    · rcases List.mem_cons.mp hd with rfl | hdR
      · refine ⟨{ d with heap := ContainingHeap.intermediate k.size, value := ptr },
          Or.inl (List.mem_append_right _ (List.mem_singleton_self _)),
          hid, hroot, hsz, ?_⟩
        show readBytes (writeBytes st.mem ptr (readBytes st.mem d.value d.size))
          ptr d.size = bytes
        rw [readBytes_writeBytes_len _ _ _ _ (readBytes_length _ _ _).symm]
        exact hbytes
      · refine ⟨d, Or.inr hdR, hid, hroot, hsz, ?_⟩
        show readBytes (writeBytes st.mem ptr (readBytes st.mem r.value r.size))
          d.value d.size = bytes
        rw [hwb d (List.mem_append_right _ (List.mem_cons_of_mem r hdR))]
        exact hbytes

theorem next_up_none_gt {s : Nat} (h : PocketSize.next_up s = .ok none) :
    HUGE_POCKET < s := by
  unfold PocketSize.next_up at h
  split_ifs at h <;>
    first
      | exact Except.noConfusion h
      | exact Option.noConfusion (Except.ok.inj h)
      | omega

theorem pocket_size_le_huge (k : PocketSize) : k.size ≤ HUGE_POCKET := by
  cases k <;>
    simp only [size_mini, size_tiny, size_small, size_medium, size_large,
      size_huge, HUGE_POCKET] <;>
    omega

theorem midinv_drop_ext {st : BumpHeap} {r : RootedInner} {R : List RootedInner}
    (hinv : MidInv st (r :: R)) : MidInv st R := by
  have hsub : (st.roots ++ R).Sublist (st.roots ++ r :: R) :=
    (List.sublist_cons_self r R).append_left st.roots
  exact ⟨hinv.young_lo, hinv.young_hi, hinv.old_pos, hinv.cur_ge, hinv.size_zero,
    hinv.ids_nodup.sublist (hsub.map RootedInner.id),
    fun d hd => hinv.ids_lt d (hsub.mem hd),
    hinv.seg_roots,
    fun d hd => hinv.descs_ok d (hsub.mem hd),
    hinv.slots_ok,
    List.Pairwise.sublist ((hsub.map descSpan).append_right _) hinv.disj⟩

theorem promote_step {st : BumpHeap} {r : RootedInner} {R : List RootedInner}
    (hinv : LoopInv st (r :: R))
    {st1 : BumpHeap} (hp : st.promote r = .ok st1) :
    LoopInv st1 R ∧
    st1.young_start = st.young_start ∧ st1.young_end = st.young_end ∧
    st1.young_current = st.young_current ∧ st1.next_id = st.next_id ∧
    (∀ id bytes, TrackedWith st (r :: R) id bytes → TrackedWith st1 R id bytes) := by
  unfold BumpHeap.promote at hp
  split at hp
  case isTrue hrt =>
    split at hp
    · exact Except.noConfusion hp
    · rename_i ptr psize oh halloc
      obtain rfl := Except.ok.inj hp
      obtain ⟨hM, hG, hT⟩ := finish_step hinv.base hinv.proc_good hrt halloc
      exact ⟨⟨hM, hG, segregated_tail hinv.rem_seg⟩, rfl, rfl, rfl, rfl, hT⟩
    · rename_i hnone
      split at hp
      · exact Except.noConfusion hp
      · rename_i stM hmaj
        have hsafe : ∀ fl1 roots1,
            sweepRoots st.intermediate.free_list st.roots = .ok (fl1, roots1) →
            (1 / 2 : ℚ) < OldHeap.fragmentation ⟨fl1⟩ →
            ∀ d ∈ r :: R, d.heap = ContainingHeap.eden := by
          intro fl1 roots1 hsw hfrag
          cases hrheap : r.heap with
          | eden =>
            intro d hd
            rcases List.mem_cons.mp hd with rfl | hd'
            · exact hrheap
            · exact segregated_head_eden hinv.rem_seg hrheap d hd'
          | intermediate c =>
            exfalso
            have hio : intOK st.intermediate.free_list r c := by
              have := hinv.base.descs_ok r
                (List.mem_append_right _ (List.mem_cons_self r R))
              unfold descOK at this
              rw [hrheap] at this
              exact this
            obtain ⟨hfs1, hfs2, hfs3⟩ := sweepRoots_fields st.roots _ _ _ hsw
            have hcs : fl1.start ≤ fl1.current := by
              rw [hfs1, hfs2]
              exact hinv.base.cur_ge
            have hhalf := (frag_gt_half_iff fl1 hcs).mp hfrag
            rw [hfs1, hfs2, hfs3] at hhalf
            have hc1 : 1 ≤ c := by
              obtain ⟨k0, hk0⟩ := (mem_pockets_iff c).mp hio.1
              rw [← hk0]
              exact pocket_size_pos k0
            rcases fl_alloc_none (oh_alloc_none hnone) with
              hupnone | ⟨k, hk, hcarve, -⟩
            · have hgt := next_up_none_gt hupnone
              obtain ⟨k0, hk0⟩ := (mem_pockets_iff c).mp hio.1
              have hch : c ≤ HUGE_POCKET := by
                rw [← hk0]
                exact pocket_size_le_huge k0
              have hrc := hio.2.1
              omega
            · have hkc : k.size ≤ c := by
                obtain ⟨k0, hk0⟩ := (mem_pockets_iff c).mp hio.1
                have := next_up_min hk k0 (by rw [hk0]; exact hio.2.1)
                rw [hk0] at this
                exact this
              have h4 := hio.2.2.1
              have h5 := hio.2.2.2
              have h6 := hinv.base.cur_ge
              rcases hhalf with hz | hlt
              · have := hinv.base.size_zero hz
                omega
              · omega
        obtain ⟨hMinv, hMfl1, hMfl2, hMT⟩ := major_pres hinv.base hsafe hmaj
        obtain ⟨hy1, hy2, hy3, hy4⟩ := major_young_fields st stM hmaj
        have hMgood : ∀ d ∈ stM.roots, d.rooted = true ∧
            ∃ c, d.heap = ContainingHeap.intermediate c := by
          intro d hd
          obtain ⟨d0, hd0, hrr, hhh, -, -⟩ := major_roots_shape st stM hmaj d hd
          obtain ⟨hr0, c, hc0⟩ := hinv.proc_good d0 hd0
          exact ⟨hrr.trans hr0, c, hhh.trans hc0⟩
        split at hp
        · exact Except.noConfusion hp
        · rename_i ptr psize oh halloc2
          obtain rfl := Except.ok.inj hp
          obtain ⟨hM2, hG2, hT2⟩ := finish_step hMinv hMgood hrt halloc2
          refine ⟨⟨hM2, hG2, segregated_tail hinv.rem_seg⟩, hy1, hy2, hy3, hy4, ?_⟩
          intro id bytes hTk
          exact hT2 id bytes (hMT id bytes hTk)
        · exact Except.noConfusion hp
  case isFalse hnr =>
    obtain rfl := Except.ok.inj hp
    refine ⟨⟨midinv_drop_ext hinv.base, hinv.proc_good,
      segregated_tail hinv.rem_seg⟩, rfl, rfl, rfl, rfl, ?_⟩
    intro id bytes hTk
    obtain ⟨d, hdmem, hid, hroot, hsz, hbytes⟩ := hTk
    rcases hdmem with hd | hd
    · exact ⟨d, Or.inl hd, hid, hroot, hsz, hbytes⟩
    · rcases List.mem_cons.mp hd with rfl | hd'
      · exact absurd hroot hnr
      · exact ⟨d, Or.inr hd', hid, hroot, hsz, hbytes⟩

theorem processRoots_pres (R : List RootedInner) :
    ∀ st st1, LoopInv st R → BumpHeap.processRoots st R = .ok st1 →
    LoopInv st1 [] ∧
    st1.young_start = st.young_start ∧ st1.young_end = st.young_end ∧
    st1.young_current = st.young_current ∧ st1.next_id = st.next_id ∧
    (∀ id bytes, TrackedWith st R id bytes → TrackedWith st1 [] id bytes) := by
  induction R with
  | nil =>
    intro st st1 hinv hp
    obtain rfl := Except.ok.inj hp
    exact ⟨hinv, rfl, rfl, rfl, rfl, fun id bytes hT => hT⟩
  | cons r rest ih =>
    intro st st1 hinv hp
    unfold BumpHeap.processRoots at hp
    split at hp
    · exact Except.noConfusion hp
    · rename_i st' hpr
      obtain ⟨hinv', hy1, hy2, hy3, hy4, hT⟩ := promote_step hinv hpr
      obtain ⟨hinv'', hz1, hz2, hz3, hz4, hT'⟩ := ih st' st1 hinv' hp
      exact ⟨hinv'', hz1.trans hy1, hz2.trans hy2, hz3.trans hy3, hz4.trans hy4,
        fun id bytes hTk => hT' id bytes (hT id bytes hTk)⟩

theorem scavenge_pres {st : BumpHeap} (hinv : Inv st)
    {st1 : BumpHeap} (hs : st.scavenge = .ok st1) :
    Inv st1 ∧
    st1.young_start = st.young_start ∧ st1.young_end = st.young_end ∧
    st1.young_current = st.young_start ∧ st1.next_id = st.next_id ∧
    (∀ id bytes, TrackedIn st id bytes → TrackedIn st1 id bytes) := by
  unfold BumpHeap.scavenge at hs
  split at hs
  · exact Except.noConfusion hs
  · rename_i stP hpr
    obtain rfl := Except.ok.inj hs
    have h0 : MidInv st [] := hinv
    have hnd0 : (st.roots.map RootedInner.id).Nodup := by
      have := h0.ids_nodup
      rw [List.append_nil] at this
      exact this
    have hdisj0 : (st.roots.map descSpan ++
        freeSlots st.intermediate.free_list).Pairwise DisjP := by
      have := h0.disj
      rw [List.append_nil] at this
      exact this
    have hinit : LoopInv { st with roots := [] } st.roots := by
      refine ⟨⟨h0.young_lo, h0.young_hi, h0.old_pos, h0.cur_ge, h0.size_zero,
        hnd0, ?_, segregated_nil, ?_, h0.slots_ok, hdisj0⟩, ?_, h0.seg_roots⟩
      · intro d hd
        exact h0.ids_lt d (List.mem_append_left [] hd)
      · intro d hd
        exact h0.descs_ok d (List.mem_append_left [] hd)
      · intro d hd
        exact absurd hd (List.not_mem_nil d)
    obtain ⟨hP, hy1, hy2, hy3, hy4, hT⟩ :=
      processRoots_pres st.roots _ stP hinit hpr
    have hPgood := hP.proc_good
    have hPbase : MidInv stP [] := hP.base
    have hfinal : MidInv { stP with
        mem := zeroRange stP.mem stP.young_start (stP.young_end - stP.young_start),
        young_current := stP.young_start } [] := by
      refine ⟨le_refl _, le_trans hPbase.young_lo hPbase.young_hi,
        hPbase.old_pos, hPbase.cur_ge, hPbase.size_zero, hPbase.ids_nodup,
        hPbase.ids_lt, hPbase.seg_roots, ?_, hPbase.slots_ok, hPbase.disj⟩
      intro d hd
      obtain ⟨-, c, hc⟩ := hPgood d (by rw [← List.append_nil stP.roots]; exact hd)
      have hok := hPbase.descs_ok d hd
      unfold descOK at hok ⊢
      rw [hc] at hok
      simp only [hc]
      exact hok
    refine ⟨hfinal, hy1, ?_, ?_, hy4, ?_⟩
    · exact hy2
    · exact hy1
    · intro id bytes hTk
      obtain ⟨d, hdmem, hid, hroot, hsz, hbytes⟩ := hT id bytes
        (by
          obtain ⟨d, hdmem, hid, hroot, hsz, hbytes⟩ := hTk
          rcases hdmem with hd | hd
          · exact ⟨d, Or.inr hd, hid, hroot, hsz, hbytes⟩
          · exact absurd hd (List.not_mem_nil d))
      rcases hdmem with hd | hd
      · refine ⟨d, Or.inl hd, hid, hroot, hsz, ?_⟩
        obtain ⟨-, c, hc⟩ := hPgood d hd
        have hok := hPbase.descs_ok d (List.mem_append_left [] hd)
        unfold descOK at hok
        rw [hc] at hok
        show readBytes (zeroRange stP.mem stP.young_start
          (stP.young_end - stP.young_start)) d.value d.size = bytes
        rw [readBytes_zeroRange_disj]
        · exact hbytes
        · refine Or.inr ?_
          show stP.young_start + (stP.young_end - stP.young_start) ≤ d.value
          have h1 := hPbase.young_lo
          have h2 := hPbase.young_hi
          have h3 := hPbase.old_pos
          have h4 := hok.2.2.1
          omega
      · exact absurd hd (List.not_mem_nil d)

/-! # Allocation establishes tracking and preserves the invariant -/

theorem alloc_finish {st0 : BumpHeap} (h0 : Inv st0) {bytes : List Nat}
    (hfits : st0.young_current + bytes.length ≤ st0.young_end) :
    Inv { st0 with
      mem := writeBytes st0.mem st0.young_current bytes,
      young_current := st0.young_current + bytes.length,
      roots := st0.roots ++
        [{ id := st0.next_id, value := st0.young_current, rooted := true,
           color := .white, heap := .eden, size := bytes.length }],
      next_id := st0.next_id + 1 } ∧
    TrackedIn { st0 with
      mem := writeBytes st0.mem st0.young_current bytes,
      young_current := st0.young_current + bytes.length,
      roots := st0.roots ++
        [{ id := st0.next_id, value := st0.young_current, rooted := true,
           color := .white, heap := .eden, size := bytes.length }],
      next_id := st0.next_id + 1 } st0.next_id bytes := by
  have hnd0 : (st0.roots.map RootedInner.id).Nodup := by
    have := h0.ids_nodup
    rw [List.append_nil] at this
    exact this
  have hdisj0 : (st0.roots.map descSpan ++
      freeSlots st0.intermediate.free_list).Pairwise DisjP := by
    have := h0.disj
    rw [List.append_nil] at this
    exact this
  have hspan_bound : ∀ d ∈ st0.roots,
      (descSpan d).1 + (descSpan d).2 ≤ st0.young_current ∨
      st0.young_end ≤ (descSpan d).1 := by
    intro d hd
    have hok := h0.descs_ok d (List.mem_append_left [] hd)
    unfold descOK at hok
    unfold descSpan descExtent
    split at hok
    · refine Or.inl ?_
      show d.value + d.size ≤ st0.young_current
      exact hok.2
    · refine Or.inr ?_
      show st0.young_end ≤ d.value
      have h3 := h0.old_pos
      have h4 := hok.2.2.1
      omega
  constructor
  · refine ⟨?_, hfits, h0.old_pos, h0.cur_ge, h0.size_zero, ?_, ?_, ?_, ?_,
      h0.slots_ok, ?_⟩
    · show st0.young_start ≤ st0.young_current + bytes.length
      have := h0.young_lo
      omega
    · show (((st0.roots ++ [_]) ++ []).map RootedInner.id).Nodup
      rw [List.append_nil, List.map_append]
      refine List.Nodup.append hnd0 (List.nodup_singleton _) ?_
      intro a ha hb
      obtain ⟨d0, hd0, rfl⟩ := List.mem_map.mp ha
      have hlt := h0.ids_lt d0 (List.mem_append_left [] hd0)
      have : d0.id = st0.next_id := by
        have hb' : d0.id ∈ [st0.next_id] := hb
        exact List.mem_singleton.mp hb'
      omega
    · intro d hd
      have hd0 : d ∈ st0.roots ++
          [{ id := st0.next_id, value := st0.young_current, rooted := true,
             color := Color.white, heap := ContainingHeap.eden,
             size := bytes.length }] := by
        have hx : d ∈ (st0.roots ++
            [{ id := st0.next_id, value := st0.young_current, rooted := true,
               color := Color.white, heap := ContainingHeap.eden,
               size := bytes.length }]) ++ [] := hd
        rw [List.append_nil] at hx
        exact hx
      rcases List.mem_append.mp hd0 with hd' | hd'
      · have := h0.ids_lt d (List.mem_append_left [] hd')
        show d.id < st0.next_id + 1
        omega
      · rw [List.mem_singleton.mp hd']
        exact Nat.lt_succ_self _
    · exact segregated_append_eden h0.seg_roots _ rfl
    · intro d hd
      have hd0 : d ∈ st0.roots ++
          [{ id := st0.next_id, value := st0.young_current, rooted := true,
             color := Color.white, heap := ContainingHeap.eden,
             size := bytes.length }] := by
        have hx : d ∈ (st0.roots ++
            [{ id := st0.next_id, value := st0.young_current, rooted := true,
               color := Color.white, heap := ContainingHeap.eden,
               size := bytes.length }]) ++ [] := hd
        rw [List.append_nil] at hx
        exact hx
      rcases List.mem_append.mp hd0 with hd' | hd'
      · refine descOK_mono ?_ ?_ ?_ ?_ (h0.descs_ok d (List.mem_append_left [] hd'))
        · rfl
        · exact Nat.le_add_right _ _
        · rfl
        · exact le_refl _
      · rw [List.mem_singleton.mp hd']
        exact ⟨h0.young_lo, le_refl _⟩
    · show ((((st0.roots ++ [_]) ++ []).map descSpan) ++
        freeSlots st0.intermediate.free_list).Pairwise DisjP
      rw [List.append_nil, List.map_append, List.append_assoc]
      refine pairwise_perm_disj List.perm_middle.symm ?_
      refine List.pairwise_cons.mpr ⟨?_, hdisj0⟩
      intro s hs
      show DisjP (st0.young_current, bytes.length) s
      rcases List.mem_append.mp hs with hs' | hs'
      · obtain ⟨d, hd, rfl⟩ := List.mem_map.mp hs'
        rcases hspan_bound d hd with hb | hb
        · exact Or.inr hb
        · refine Or.inl ?_
          show st0.young_current + bytes.length ≤ (descSpan d).1
          omega
      · have hok := h0.slots_ok s hs'
        refine Or.inl ?_
        show st0.young_current + bytes.length ≤ s.1
        have h3 := h0.old_pos
        have h4 := hok.1
        omega
  · refine ⟨_, Or.inl (List.mem_append_right _ (List.mem_singleton_self _)),
      rfl, rfl, rfl, ?_⟩
    show readBytes (writeBytes st0.mem st0.young_current bytes)
      st0.young_current bytes.length = bytes
    exact readBytes_writeBytes _ _ _

theorem alloc_pres {st : BumpHeap} (hinv : Inv st) {bytes : List Nat}
    {st' : BumpHeap} {h : Nat} (halloc : st.alloc bytes = .ok (st', h)) :
    Inv st' ∧ TrackedIn st' h bytes := by
  simp only [BumpHeap.alloc] at halloc
  split at halloc
  · exact Except.noConfusion halloc
  · rename_i st0 hpre
    have h0 : Inv st0 := by
      split at hpre
      · exact (scavenge_pres hinv hpre).1
      · obtain rfl := Except.ok.inj hpre
        exact hinv
    split at halloc
    · exact Except.noConfusion halloc
    · rename_i hover
      have hfits : st0.young_current + bytes.length ≤ st0.young_end :=
        Nat.le_of_not_lt hover
      have hinj := Except.ok.inj halloc
      obtain ⟨h1, h2⟩ := Prod.mk.inj hinj
      subst h1
      subst h2
      exact alloc_finish h0 hfits

theorem Inv_new (options : BumpOptions) (base pageSize : Nat) :
    Inv (BumpHeap.new options base pageSize) := by
  refine ⟨le_refl _, ?_, Nat.lt_succ_self _, le_refl _, fun _ => rfl,
    List.nodup_nil, ?_, segregated_nil, ?_, ?_, List.Pairwise.nil⟩
  · show base ≤ base + (options.young_heap_size + options.old_heap_size +
      padding_for (options.young_heap_size + options.old_heap_size) pageSize) -
      options.old_heap_size
    omega
  · intro d hd
    exact absurd hd (List.not_mem_nil d)
  · intro d hd
    exact absurd hd (List.not_mem_nil d)
  · intro s hs
    exact absurd hs (List.not_mem_nil s)

theorem runOps_cons_scavenge (s : BumpHeap) (rest : List Op) :
    runOps s (Op.scavengeOp :: rest) =
      match s.scavenge with
      | .error p => .error p
      | .ok s1 => runOps s1 rest := rfl

theorem runOps_cons_major (s : BumpHeap) (rest : List Op) :
    runOps s (Op.majorOp :: rest) =
      match s.major with
      | .error p => .error p
      | .ok s1 => runOps s1 rest := rfl

/-- **C1**.  For every value allocated via `BumpHeap::alloc` in a heap
satisfying the heap invariant, and for every sequence of `scavenge()` and
`major()` calls performed while the handle is live (never dropped),
dereferencing the handle yields bytes equal to the allocated value.  The
old-generation heap driven by promotion and `major` is the spec-modelled
`OldHeap` (its `SweepHeap::from_region/alloc/collect(&mut roots)` interface
is absent from `src/sweep_heap.rs`). -/
theorem C1_alloc_deref_stable {st : BumpHeap} (hinv : Inv st)
    (bytes : List Nat) {st' : BumpHeap} {h : Nat}
    (halloc : st.alloc bytes = .ok (st', h))
    {ops : List Op} (hops : ∀ op ∈ ops, op = Op.scavengeOp ∨ op = Op.majorOp)
    {st'' : BumpHeap} (hrun : runOps st' ops = .ok st'') :
    BumpHeap.derefHandle st'' h = bytes := by
  obtain ⟨hinv', htr⟩ := alloc_pres hinv halloc
  have main : ∀ (l : List Op), (∀ op ∈ l, op = Op.scavengeOp ∨ op = Op.majorOp) →
      ∀ s s1, Inv s → TrackedIn s h bytes → runOps s l = .ok s1 →
      Inv s1 ∧ TrackedIn s1 h bytes := by
    intro l
    induction l with
    | nil =>
      intro _ s s1 hI hT hr
      obtain rfl := Except.ok.inj hr
      exact ⟨hI, hT⟩
    | cons op rest ih =>
      intro hl s s1 hI hT hr
      rcases hl op (List.mem_cons_self op rest) with rfl | rfl
      · rw [runOps_cons_scavenge] at hr
        split at hr
        · exact Except.noConfusion hr
        · rename_i s2 hstep
          obtain ⟨hI1, -, -, -, -, hT1⟩ := scavenge_pres hI hstep
          exact ih (fun op hop => hl op (List.mem_cons_of_mem _ hop)) s2 s1 hI1
            (hT1 h bytes hT) hr
      · rw [runOps_cons_major] at hr
        split at hr
        · exact Except.noConfusion hr
        · rename_i s2 hstep
          obtain ⟨hI1, -, -, hT1⟩ := major_pres hI
            (fun fl1 roots1 hsw hfrag d hd => absurd hd (List.not_mem_nil d))
            hstep
          exact ih (fun op hop => hl op (List.mem_cons_of_mem _ hop)) s2 s1 hI1
            (hT1 h bytes hT) hr
  obtain ⟨hI2, hT2⟩ := main ops hops st' st'' hinv' htr hrun
  obtain ⟨d, hdmem, hid, hroot, hsz, hbytes⟩ := hT2
  rcases hdmem with hd | hd
  · have hnd : (st''.roots.map RootedInner.id).Nodup := by
      have := hI2.ids_nodup
      rw [List.append_nil] at this
      exact this
    unfold BumpHeap.derefHandle
    rw [← hid, find_id_of_nodup hnd hd]
    exact hbytes
  · exact absurd hd (List.not_mem_nil d)

/-- **C1** (witness).  A concrete run: allocate the payload `[7]` in a fresh
default heap (yielding handle `0`), run one scavenge — which promotes the
value into the old region — and the handle still dereferences to `[7]`. -/
theorem C1_witness :
    BumpHeap.alloc heapC1 [7] = .ok (bumpC1, 0) ∧
    (∀ op ∈ [Op.scavengeOp], op = Op.scavengeOp ∨ op = Op.majorOp) ∧
    runOps bumpC1 [Op.scavengeOp] = .ok scavC1 ∧
    BumpHeap.derefHandle scavC1 0 = [7] :=
  ⟨rfl, by decide, rfl,
    C1_alloc_deref_stable (Inv_new BumpOptions.default 4096 4096) [7] rfl
      (show (∀ op ∈ [Op.scavengeOp], op = Op.scavengeOp ∨ op = Op.majorOp)
        by decide) rfl⟩

end Ballast
